import Mathlib

/-!
Shallow embedding of the Checkers Studio rules engine and adversarial search
(`src/app.ts`).  TypeScript's mutable `Board` becomes a function
`Int → Int → Option Piece` updated functionally; `bigint` hashes become `Nat`;
JavaScript's `±Infinity` sentinels become the three-valued `Score` type;
`Math.random` and `Date.now`-versus-deadline readings become explicit oracle
streams threaded through the search.  Thrown exceptions
(`SearchTimeoutError`, invalid-move `Error`) become `Except` /`Option` results.
-/

namespace CheckersStudio

inductive Color where
  | w
  | b
deriving DecidableEq, Repr

structure Piece where
  color : Color
  king : Bool
deriving DecidableEq, Repr

structure Coords where
  r : Int
  c : Int
deriving DecidableEq, Repr

/-- `Move` from the source; `from`/`to` are Lean keywords so the fields are
named `fromSq`/`toSq`. -/
structure Move where
  fromSq : Coords
  toSq : Coords
  captures : List Coords
deriving DecidableEq, Repr

/-- The 8×8 mutable board of the source, as a total function; the engine only
reads and writes squares with both coordinates in `[0, 8)`. -/
def Board := Int → Int → Option Piece

/-- A single square assignment (`board[r][c] = v` in the source). -/
def bset (b : Board) (r c : Int) (v : Option Piece) : Board :=
  fun r' c' => if r' = r ∧ c' = c then v else b r' c'

def BOARD_SIZE : Int := 8

def WIN_SCORE : Int := 1000000

def DIRECTIONS : List (Int × Int) := [(-1, -1), (-1, 1), (1, -1), (1, 1)]

def opposite : Color → Color
  | .w => .b
  | .b => .w

def isInside (r c : Int) : Bool :=
  decide (0 ≤ r) && decide (r < BOARD_SIZE) && decide (0 ≤ c) && decide (c < BOARD_SIZE)

def isPlayableSquare (r c : Int) : Bool :=
  decide ((r + c) % 2 = 1)

/-- King slide loop of `getSimpleMovesForPiece` (the inner `while`); fuel 8
is enough because a slide from an on-board square leaves the board within
7 steps. -/
def kingSlide (b : Board) (fromR fromC dr dc : Int) : Nat → Int → Int → List Move
  | 0, _, _ => []
  | fuel + 1, nr, nc =>
    if isInside nr nc && (b nr nc).isNone then
      ⟨⟨fromR, fromC⟩, ⟨nr, nc⟩, []⟩ :: kingSlide b fromR fromC dr dc fuel (nr + dr) (nc + dc)
    else []

def getSimpleMovesForPiece (b : Board) (r c : Int) (piece : Piece) : List Move :=
  if piece.king then
    DIRECTIONS.flatMap (fun d => kingSlide b r c d.1 d.2 8 (r + d.1) (c + d.2))
  else
    let forward : Int := if piece.color = .w then -1 else 1
    ([-1, 1] : List Int).filterMap (fun dc =>
      let nr := r + forward
      let nc := c + dc
      if isInside nr nc && (b nr nc).isNone then
        some ⟨⟨r, c⟩, ⟨nr, nc⟩, []⟩
      else none)

def getManCaptures (b : Board) (r c : Int) (piece : Piece) : List Move :=
  DIRECTIONS.filterMap (fun d =>
    let mr := r + d.1
    let mc := c + d.2
    let tr := r + d.1 * 2
    let tc := c + d.2 * 2
    if isInside mr mc && isInside tr tc then
      match b mr mc with
      | some middle =>
        if decide (middle.color ≠ piece.color) && (b tr tc).isNone then
          some ⟨⟨r, c⟩, ⟨tr, tc⟩, [⟨mr, mc⟩]⟩
        else none
      | none => none
    else none)

/-- The directional scan of `getKingCaptures` (the inner `while` with its
`enemySquare` state); fuel 8 suffices as for `kingSlide`. -/
def kingCaptureScan (b : Board) (fromR fromC : Int) (pieceColor : Color) (dr dc : Int) :
    Nat → Int → Int → Option Coords → List Move
  | 0, _, _, _ => []
  | fuel + 1, nr, nc, enemySquare =>
    if isInside nr nc then
      match enemySquare with
      | none =>
        match b nr nc with
        | none => kingCaptureScan b fromR fromC pieceColor dr dc fuel (nr + dr) (nc + dc) none
        | some current =>
          if current.color = pieceColor then []
          else kingCaptureScan b fromR fromC pieceColor dr dc fuel (nr + dr) (nc + dc)
            (some ⟨nr, nc⟩)
      | some e =>
        match b nr nc with
        | some _ => []
        | none =>
          ⟨⟨fromR, fromC⟩, ⟨nr, nc⟩, [e]⟩ ::
            kingCaptureScan b fromR fromC pieceColor dr dc fuel (nr + dr) (nc + dc) (some e)
    else []

def getKingCaptures (b : Board) (r c : Int) (piece : Piece) : List Move :=
  DIRECTIONS.flatMap (fun d =>
    kingCaptureScan b r c piece.color d.1 d.2 8 (r + d.1) (c + d.2) none)

def getCaptureMovesForPiece (b : Board) (r c : Int) (piece : Piece) : List Move :=
  if piece.king then getKingCaptures b r c piece
  else getManCaptures b r c piece

/-- All `(r, c)` square coordinates in the row-major scan order of the source's
nested `for` loops. -/
def allSquares : List (Int × Int) :=
  (List.range 8).flatMap (fun r => (List.range 8).map (fun c => (Int.ofNat r, Int.ofNat c)))

/-- One square step of the scan in `getLegalMoves`.  The accumulator is
`(captureMoves, quietMoves, hasCaptures)`. -/
def legalStep (b : Board) (color : Color) (acc : List Move × List Move × Bool)
    (rc : Int × Int) : List Move × List Move × Bool :=
  match b rc.1 rc.2 with
  | none => acc
  | some piece =>
    if piece.color ≠ color then acc
    else
      let captures := getCaptureMovesForPiece b rc.1 rc.2 piece
      if ¬ captures.isEmpty then (acc.1 ++ captures, acc.2.1, true)
      else if acc.2.2 then acc
      else (acc.1, acc.2.1 ++ getSimpleMovesForPiece b rc.1 rc.2 piece, acc.2.2)

def getLegalMoves (b : Board) (color : Color) (pendingCapture : Option Coords) : List Move :=
  match pendingCapture with
  | some pc =>
    match b pc.r pc.c with
    | none => []
    | some piece =>
      if piece.color = color then getCaptureMovesForPiece b pc.r pc.c piece else []
  | none =>
    let res := allSquares.foldl (legalStep b color) ([], [], false)
    if res.2.2 then res.1 else res.2.1

structure TurnState where
  turn : Color
  pendingCapture : Option Coords
deriving DecidableEq, Repr

/-- `nextTurnState`.  The `none` inner branch is unreachable when called from
`applyMoveMutable` (which has just placed the moved piece on `move.to`); in the
source a null piece there would crash, which never happens. -/
def nextTurnState (b : Board) (turn : Color) (move : Move) : TurnState :=
  if ¬ move.captures.isEmpty then
    match b move.toSq.r move.toSq.c with
    | some movedPiece =>
      if ¬ (getCaptureMovesForPiece b move.toSq.r move.toSq.c movedPiece).isEmpty then
        ⟨turn, some move.toSq⟩
      else ⟨opposite turn, none⟩
    | none => ⟨opposite turn, none⟩
  else ⟨opposite turn, none⟩

/-! ### Zobrist hashing

The source seeds an xorshift32 generator with `0x9e3779b9` and draws the
Zobrist constants in a fixed order at module load.  `random64At k` is the value
of the `k`-th `random64(zobristRand32)` call (each consuming two 32-bit
draws). -/

/-- One step of `createXorShift32`'s closure; the JS `>>> 0` normalisations
become `% 2^32`. -/
def xorshift32Step (value : Nat) : Nat :=
  let v1 := Nat.xor value ((value <<< 13) % 2 ^ 32)
  let v2 := Nat.xor v1 (v1 >>> 17)
  Nat.xor v2 ((v2 <<< 5) % 2 ^ 32)

/-- `zobristRand32()`'s `i`-th return value (`i = 0` is the first call);
the seed `0x9e3779b9` is nonzero so `seed >>> 0 || 1` keeps it. -/
def rand32 : Nat → Nat
  | 0 => xorshift32Step 0x9e3779b9
  | i + 1 => xorshift32Step (rand32 i)

/-- The `k`-th `random64(zobristRand32)` result. -/
def random64At (k : Nat) : Nat :=
  Nat.xor (rand32 (2 * k) <<< 32) (rand32 (2 * k + 1))

def boardIndex (r c : Int) : Nat :=
  (r * BOARD_SIZE + c).toNat

def pieceHashIndex (piece : Piece) : Nat :=
  match piece.color with
  | .w => if piece.king then 1 else 0
  | .b => if piece.king then 3 else 2

/-- `ZOBRIST_PIECES[idx][pieceIdx]`: the table is populated square by square,
four entries per square, so entry `(idx, pieceIdx)` is `random64` call
`idx * 4 + pieceIdx`. -/
def ZOBRIST_PIECES (idx pieceIdx : Nat) : Nat :=
  random64At (idx * 4 + pieceIdx)

def ZOBRIST_TURN_WHITE : Nat := random64At 256

def ZOBRIST_TURN_BLACK : Nat := random64At 257

def ZOBRIST_PENDING (idx : Nat) : Nat := random64At (258 + idx)

def ZOBRIST_NO_PENDING : Nat := random64At 322

def ZOBRIST_VARIANT_CLASSIC : Nat := random64At 323

def ZOBRIST_VARIANT_GIVEAWAY : Nat := random64At 324

def zPieceTerm (r c : Int) (piece : Piece) : Nat :=
  ZOBRIST_PIECES (boardIndex r c) (pieceHashIndex piece)

/-- One square's contribution inside `computeBoardHash`'s loops. -/
def hashStep (b : Board) (hash : Nat) (rc : Int × Int) : Nat :=
  match b rc.1 rc.2 with
  | none => hash
  | some piece => Nat.xor hash (zPieceTerm rc.1 rc.2 piece)

def computeBoardHash (b : Board) : Nat :=
  allSquares.foldl (hashStep b) 0

def pendingCaptureHash (pendingCapture : Option Coords) : Nat :=
  match pendingCapture with
  | none => ZOBRIST_NO_PENDING
  | some pc => ZOBRIST_PENDING (boardIndex pc.r pc.c)

inductive Variant where
  | classic
  | giveaway
deriving DecidableEq, Repr

def variantHash (variant : Variant) : Nat :=
  match variant with
  | .classic => ZOBRIST_VARIANT_CLASSIC
  | .giveaway => ZOBRIST_VARIANT_GIVEAWAY

/-- `isGiveawayVariant` reads the global `state.variant`; here the variant is
passed explicitly. -/
def isGiveawayVariant (variant : Variant) : Bool :=
  variant = .giveaway

/-! ### Mutator (apply / undo) -/

structure GameNode where
  board : Board
  hash : Nat
  turn : Color
  pendingCapture : Option Coords

structure CapturedPieceUndo where
  r : Int
  c : Int
  piece : Piece
deriving DecidableEq, Repr

structure AppliedMoveUndo where
  move : Move
  movedPiece : Piece
  wasKing : Bool
  captured : List CapturedPieceUndo
  prevHash : Nat
  prevTurn : Color
  prevPendingCapture : Option Coords
deriving DecidableEq, Repr

/-- One iteration of `applyMoveMutable`'s loop over `move.captures`,
accumulating `(board, hash, undo.captured)`. -/
def captureStep (acc : Board × Nat × List CapturedPieceUndo) (sq : Coords) :
    Board × Nat × List CapturedPieceUndo :=
  match acc.1 sq.r sq.c with
  | none => acc
  | some capturedPiece =>
    (bset acc.1 sq.r sq.c none,
     Nat.xor acc.2.1 (zPieceTerm sq.r sq.c capturedPiece),
     acc.2.2 ++ [⟨sq.r, sq.c, capturedPiece⟩])

/-- `applyMoveMutable`; `none` models the thrown
`Error("Invalid move: source square is empty")`, raised before any mutation. -/
def applyMoveMutable (node : GameNode) (move : Move) : Option (GameNode × AppliedMoveUndo) :=
  match node.board move.fromSq.r move.fromSq.c with
  | none => none
  | some movedPiece =>
    let h1 := Nat.xor node.hash (zPieceTerm move.fromSq.r move.fromSq.c movedPiece)
    let b1 := bset node.board move.fromSq.r move.fromSq.c none
    let acc := move.captures.foldl captureStep (b1, h1, [])
    let promoted := ¬ movedPiece.king ∧
      ((movedPiece.color = .w ∧ move.toSq.r = 0) ∨
        (movedPiece.color = .b ∧ move.toSq.r = BOARD_SIZE - 1))
    let movedPiece' := if promoted then { movedPiece with king := true } else movedPiece
    let b3 := bset acc.1 move.toSq.r move.toSq.c (some movedPiece')
    let h3 := Nat.xor acc.2.1 (zPieceTerm move.toSq.r move.toSq.c movedPiece')
    let ts := nextTurnState b3 node.turn move
    some ({ board := b3, hash := h3, turn := ts.turn, pendingCapture := ts.pendingCapture },
      { move := move, movedPiece := movedPiece, wasKing := movedPiece.king,
        captured := acc.2.2, prevHash := node.hash, prevTurn := node.turn,
        prevPendingCapture := node.pendingCapture })

def undoMoveMutable (node : GameNode) (undo : AppliedMoveUndo) : GameNode :=
  let b1 := bset node.board undo.move.toSq.r undo.move.toSq.c none
  let b2 := bset b1 undo.move.fromSq.r undo.move.fromSq.c
    (some { undo.movedPiece with king := undo.wasKing })
  let b3 := undo.captured.foldl (fun bAcc cap => bset bAcc cap.r cap.c (some cap.piece)) b2
  { board := b3, hash := undo.prevHash, turn := undo.prevTurn,
    pendingCapture := undo.prevPendingCapture }

/-! ### Evaluator -/

/-- `terminalScore`; `depth` is the *remaining* search depth at the node where
the side to move has no legal moves. -/
def terminalScore (variant : Variant) (sideToMove perspectiveColor : Color) (depth : Int) : Int :=
  let perspectiveWins :=
    if isGiveawayVariant variant then sideToMove = perspectiveColor
    else sideToMove ≠ perspectiveColor
  if perspectiveWins then WIN_SCORE - depth else -WIN_SCORE + depth

def isPotentialVictim (b : Board) (r c : Int) (victimColor : Color) : Bool :=
  let attackerColor := opposite victimColor
  DIRECTIONS.any (fun d =>
    let attackerR := r - d.1
    let attackerC := c - d.2
    let landingR := r + d.1
    let landingC := c + d.2
    if isInside attackerR attackerC && isInside landingR landingC then
      match b attackerR attackerC with
      | none => false
      | some attacker =>
        if attacker.color ≠ attackerColor then false
        else (b landingR landingC).isNone
    else false)

/-- Accumulator for `evaluateGiveawayPosition`'s piece scan. -/
structure GiveawayAcc where
  myMen : Int
  myKings : Int
  oppMen : Int
  oppKings : Int
  myProgress : Int
  oppProgress : Int
  myVictims : Int
  oppVictims : Int
deriving Repr

def giveawayStep (b : Board) (perspectiveColor : Color) (acc : GiveawayAcc)
    (rc : Int × Int) : GiveawayAcc :=
  match b rc.1 rc.2 with
  | none => acc
  | some piece =>
    let isMine := piece.color = perspectiveColor
    let acc :=
      if piece.king then
        if isMine then { acc with myKings := acc.myKings + 1 }
        else { acc with oppKings := acc.oppKings + 1 }
      else
        let progress := if piece.color = .w then BOARD_SIZE - 1 - rc.1 else rc.1
        if isMine then
          { acc with myMen := acc.myMen + 1, myProgress := acc.myProgress + progress }
        else
          { acc with oppMen := acc.oppMen + 1, oppProgress := acc.oppProgress + progress }
    if isPotentialVictim b rc.1 rc.2 piece.color then
      if isMine then { acc with myVictims := acc.myVictims + 1 }
      else { acc with oppVictims := acc.oppVictims + 1 }
    else acc

def evaluateGiveawayPosition (node : GameNode) (perspectiveColor : Color)
    (legalMoves : List Move) : Int :=
  let acc := allSquares.foldl (giveawayStep node.board perspectiveColor)
    ⟨0, 0, 0, 0, 0, 0, 0, 0⟩
  let myPieces := acc.myMen + acc.myKings
  let oppPieces := acc.oppMen + acc.oppKings
  if myPieces = 0 then WIN_SCORE
  else if oppPieces = 0 then -WIN_SCORE
  else
    let score := (acc.oppMen - acc.myMen) * 170
      + (acc.oppKings - acc.myKings) * 300
      + (acc.oppProgress - acc.myProgress) * 8
      + (acc.myVictims - acc.oppVictims) * 52
    let score := if acc.myMen = 0 ∧ acc.myKings > 0 then score - acc.myKings * 34 else score
    let score := if acc.oppMen = 0 ∧ acc.oppKings > 0 then score + acc.oppKings * 34 else score
    let mobility := (legalMoves.length : Int) * 4
    if node.turn = perspectiveColor then score - mobility else score + mobility

/-- One square's contribution to the classic evaluation; the accumulator is
`(score, myCount, oppCount)`. -/
def classicStep (b : Board) (perspectiveColor : Color) (acc : Int × Int × Int)
    (rc : Int × Int) : Int × Int × Int :=
  match b rc.1 rc.2 with
  | none => acc
  | some piece =>
    let value : Int := if piece.king then 320 else 120
    let value :=
      if ¬ piece.king then
        let progress := if piece.color = .w then BOARD_SIZE - 1 - rc.1 else rc.1
        let value := value + progress * 9
        let homeRow := if piece.color = .w then BOARD_SIZE - 1 else 0
        if rc.1 = homeRow then value + 10 else value
      else if rc.1 = 0 ∨ rc.1 = BOARD_SIZE - 1 ∨ rc.2 = 0 ∨ rc.2 = BOARD_SIZE - 1 then
        value - 8
      else value
    let value :=
      if 2 ≤ rc.1 ∧ rc.1 ≤ 5 ∧ 2 ≤ rc.2 ∧ rc.2 ≤ 5 then value + 10 else value
    let supportRow := if piece.color = .w then rc.1 + 1 else rc.1 - 1
    let supported :=
      (isInside supportRow (rc.2 - 1) &&
        match b supportRow (rc.2 - 1) with
        | some q => q.color = piece.color
        | none => false) ||
      (isInside supportRow (rc.2 + 1) &&
        match b supportRow (rc.2 + 1) with
        | some q => q.color = piece.color
        | none => false)
    let value := if supported then value + 7 else value
    if piece.color = perspectiveColor then (acc.1 + value, acc.2.1 + 1, acc.2.2)
    else (acc.1 - value, acc.2.1, acc.2.2 + 1)

/-- `evaluatePosition`; the optional `legalMoves` argument mirrors the
source's defaulted parameter. -/
def evaluatePosition (variant : Variant) (node : GameNode) (perspectiveColor : Color)
    (legalMoves : Option (List Move)) : Int :=
  let availableMoves :=
    match legalMoves with
    | some ms => ms
    | none => getLegalMoves node.board node.turn node.pendingCapture
  if availableMoves.isEmpty then terminalScore variant node.turn perspectiveColor 0
  else if isGiveawayVariant variant then
    evaluateGiveawayPosition node perspectiveColor availableMoves
  else
    let acc := allSquares.foldl (classicStep node.board perspectiveColor) (0, 0, 0)
    if acc.2.1 = 0 then if isGiveawayVariant variant then WIN_SCORE else -WIN_SCORE
    else if acc.2.2 = 0 then if isGiveawayVariant variant then -WIN_SCORE else WIN_SCORE
    else
      let mobility := (availableMoves.length : Int) * 3
      let score :=
        if node.turn = perspectiveColor then acc.1 + mobility else acc.1 - mobility
      if isGiveawayVariant variant then -score else score

/-! ### Search engine

JavaScript number scores reach `±Infinity` only through the literal
`-Infinity`/`Infinity` sentinels, so scores are modelled by `Score`.
`Date.now() >= deadline` readings and `Math.random()` draws are supplied by
oracle streams in `SearchEnv`, consumed in program order. -/

inductive Score where
  | ninf
  | fin (val : Int)
  | inf
deriving DecidableEq, Repr

/-- JavaScript `<=` on the modelled score values. -/
def Score.le : Score → Score → Bool
  | .ninf, _ => true
  | _, .inf => true
  | .fin a, .fin b => a ≤ b
  | .inf, _ => false
  | .fin _, .ninf => false

/-- JavaScript `<` (equivalently `>` flipped) on the modelled score values. -/
def Score.lt (a b : Score) : Bool := ¬ Score.le b a

/-- `Math.max` on the modelled score values. -/
def Score.max (a b : Score) : Score := if Score.le a b then b else a

/-- `Math.min` on the modelled score values. -/
def Score.min (a b : Score) : Score := if Score.le a b then a else b

/-- Subtracting an ordinary number from a score (`bestScore - config.noise`). -/
def Score.subInt : Score → Int → Score
  | .ninf, _ => .ninf
  | .inf, _ => .inf
  | .fin a, n => .fin (a - n)

inductive Difficulty where
  | easy
  | medium
  | hard
deriving DecidableEq, Repr

inductive Mode where
  | ai
  | hint
deriving DecidableEq, Repr

structure DifficultyConfig where
  maxDepth : Nat
  timeMs : Nat
  randomChance : ℚ
  noise : Int
  hintDepth : Nat
  hintTimeMs : Nat
deriving Repr

def DIFFICULTIES : Difficulty → DifficultyConfig
  | .easy => ⟨4, 260, ⟨11, 50, by decide, by decide⟩, 120, 6, 900⟩
  | .medium => ⟨6, 750, ⟨1, 20, by decide, by decide⟩, 24, 8, 1600⟩
  | .hard => ⟨8, 1500, ⟨0, 1, by decide, by decide⟩, 0, 9, 1500⟩

inductive TTFlag where
  | exact
  | lower
  | upper
deriving DecidableEq, Repr

structure TTEntry where
  depth : Nat
  score : Score
  bestMove : Option Move
  flag : TTFlag
deriving DecidableEq, Repr

/-- The deadline oracle: `expired k` is the outcome of the `k`-th
`Date.now() >= deadline` comparison.  `rng k` is the `k`-th `Math.random()`
draw. -/
structure SearchEnv where
  expired : Nat → Bool
  rng : Nat → ℚ

/-- The source's thrown exceptions: `SearchTimeoutError`, and the plain
`Error` thrown by `applyMoveMutable` for an empty source square (which a
search would never catch). -/
inductive SearchAbort where
  | timeout
  | invalid
deriving DecidableEq, Repr

/-- `clock.nodes` plus the position of the mutable `Map` table and of the next
deadline reading. -/
structure SearchIO where
  nodes : Nat
  timeIdx : Nat
  table : List (Nat × TTEntry)

structure SearchResult where
  move : Option Move
  score : Score
  depthReached : Nat
deriving DecidableEq, Repr

def SearchClockCheckPeriodMask : Nat := 63

def checkSearchDeadline (env : SearchEnv) (io : SearchIO) : Except SearchAbort SearchIO :=
  let io := { io with nodes := io.nodes + 1 }
  if io.nodes &&& SearchClockCheckPeriodMask ≠ 0 then .ok io
  else if env.expired io.timeIdx then .error .timeout
  else .ok { io with timeIdx := io.timeIdx + 1 }

/-- `nodeCacheKey`; the source reads the global `state.variant`. -/
def nodeCacheKey (variant : Variant) (node : GameNode) : Nat :=
  let key := Nat.xor node.hash
    (match node.turn with | .w => ZOBRIST_TURN_WHITE | .b => ZOBRIST_TURN_BLACK)
  let key := Nat.xor key (pendingCaptureHash node.pendingCapture)
  Nat.xor key (variantHash variant)

def sameMove (a b : Move) : Bool := a = b

def moveOrderingScore (b : Board) (move : Move) : Int :=
  let score : Int := (move.captures.length : Int) * 1000
  match b move.fromSq.r move.fromSq.c with
  | none => score
  | some piece =>
    let score :=
      if ¬ piece.king then
        let promotionRow := if piece.color = .w then 0 else BOARD_SIZE - 1
        if move.toSq.r = promotionRow then score + 700 else score
      else score + 70
    -- centerDistance = |3.5 - to.r| + |3.5 - to.c| is always integral, so it
    -- is tracked doubled: centerDistance * 5 = (|7-2r| + |7-2c|) * 5 / 2.
    let centerDistance2 : Int := ((7 - 2 * move.toSq.r).natAbs + (7 - 2 * move.toSq.c).natAbs : Nat)
    score + 40 - centerDistance2 * 5 / 2

/-- Stable insertion step for the descending sort in `orderMoves`: an element
goes after every already-placed element with a score `≥` its own, matching the
stable `Array.prototype.sort` with comparator `right.score - left.score`. -/
def insertDesc (x : Move × Int) : List (Move × Int) → List (Move × Int)
  | [] => [x]
  | y :: ys => if y.2 < x.2 then x :: y :: ys else y :: insertDesc x ys

def sortDesc : List (Move × Int) → List (Move × Int)
  | [] => []
  | x :: xs => insertDesc x (sortDesc xs)

def orderMoves (b : Board) (moves : List Move) (preferredMove : Option Move) : List Move :=
  let scored := moves.map (fun move =>
    let score := moveOrderingScore b move
    let score :=
      match preferredMove with
      | some pm => if sameMove move pm then score + 10000 else score
      | none => score
    (move, score))
  (sortDesc scored).map (·.1)

/-- The early-out / window-tightening transposition-table consultation at the
top of `minimax`.  `.inl s` is an immediate return with score `s`; `.inr`
carries the possibly tightened `(alpha, beta)` and the preferred move. -/
def ttProbe (cached : Option TTEntry) (depth : Nat) (alpha beta : Score) :
    Sum Score (Score × Score × Option Move) :=
  match cached with
  | none => .inr (alpha, beta, none)
  | some entry =>
    if entry.depth ≥ depth then
      if entry.flag = .exact then .inl entry.score
      else
        let alpha := if entry.flag = .lower then Score.max alpha entry.score else alpha
        let beta := if entry.flag = .upper then Score.min beta entry.score else beta
        if Score.le beta alpha then .inl entry.score
        else .inr (alpha, beta, entry.bestMove)
    else .inr (alpha, beta, entry.bestMove)

/-- The `for (const move of ordered)` loop of `minimax`; `recur` is the
depth-decremented recursive call.  The `try/finally` undo is implicit: the
parent `node` is untouched by value semantics, also when the child aborts. -/
def minimaxLoop (recur : GameNode → Score → Score → SearchIO → Except SearchAbort (Score × SearchIO))
    (node : GameNode) (maximizing : Bool) :
    List Move → Score → Score → Score → Option Move → SearchIO →
      Except SearchAbort (Score × Option Move × SearchIO)
  | [], _, _, bestScore, bestMove, io => .ok (bestScore, bestMove, io)
  | move :: rest, alpha, beta, bestScore, bestMove, io =>
    match applyMoveMutable node move with
    | none => .error .invalid
    | some (child, _undo) =>
      match recur child alpha beta io with
      | .error e => .error e
      | .ok (childScore, io) =>
        let improved :=
          if maximizing then Score.lt bestScore childScore else Score.lt childScore bestScore
        let bestScore := if improved then childScore else bestScore
        let bestMove := if improved then some move else bestMove
        let alpha := if maximizing then Score.max alpha bestScore else alpha
        let beta := if maximizing then beta else Score.min beta bestScore
        if Score.le beta alpha then .ok (bestScore, bestMove, io)
        else minimaxLoop recur node maximizing rest alpha beta bestScore bestMove io

def minimax (env : SearchEnv) (variant : Variant) (rootColor : Color) :
    Nat → GameNode → Score → Score → SearchIO → Except SearchAbort (Score × SearchIO)
  | depth, node, alpha, beta, io =>
    match checkSearchDeadline env io with
    | .error e => .error e
    | .ok io =>
      let legalMoves := getLegalMoves node.board node.turn node.pendingCapture
      if legalMoves.isEmpty then
        .ok (.fin (terminalScore variant node.turn rootColor (depth : Int)), io)
      else
        match depth with
        | 0 => .ok (.fin (evaluatePosition variant node rootColor (some legalMoves)), io)
        | d + 1 =>
          let alphaOriginal := alpha
          let betaOriginal := beta
          let cacheKey := nodeCacheKey variant node
          match ttProbe (io.table.lookup cacheKey) (d + 1) alpha beta with
          | .inl score => .ok (score, io)
          | .inr (alpha, beta, preferredMove) =>
            let maximizing := node.turn = rootColor
            let ordered := orderMoves node.board legalMoves preferredMove
            match minimaxLoop (minimax env variant rootColor d) node maximizing ordered
                alpha beta (if maximizing then .ninf else .inf) ordered.head? io with
            | .error e => .error e
            | .ok (bestScore, bestMoveFinal, io) =>
              let flag : TTFlag :=
                if Score.le bestScore alphaOriginal then .upper
                else if Score.le betaOriginal bestScore then .lower
                else .exact
              .ok (bestScore,
                { io with table := (cacheKey, ⟨d + 1, bestScore, bestMoveFinal, flag⟩) :: io.table })

/-! ### Top-level search (`chooseBestMove`) -/

/-- The per-depth mutable state of `chooseBestMove`'s iterative-deepening
loop: `bestMove`, `bestScore`, `depthReached`, `scoredAtDepth`, plus the
threaded clock/table. -/
structure LoopState where
  bestMove : Move
  bestScore : Score
  depthReached : Nat
  scoredAtDepth : List (Move × Score)
  io : SearchIO

/-- The inner `for (const move of orderedRootMoves)` loop of one depth
iteration.  The accumulator mirrors `depthBestMove` (initially
`orderedRootMoves[0]`), `depthBestScore` and `depthScores`. -/
def rootMovesLoop (env : SearchEnv) (variant : Variant) (side : Color) (root : GameNode)
    (depthMinus1 : Nat) :
    List Move → Option Move → Score → List (Move × Score) → SearchIO →
      Except SearchAbort (Option Move × Score × List (Move × Score) × SearchIO)
  | [], depthBestMove, depthBestScore, depthScores, io =>
    .ok (depthBestMove, depthBestScore, depthScores, io)
  | move :: rest, depthBestMove, depthBestScore, depthScores, io =>
    if env.expired io.timeIdx then .error .timeout
    else
      let io := { io with timeIdx := io.timeIdx + 1 }
      match applyMoveMutable root move with
      | none => .error .invalid
      | some (child, _undo) =>
        match minimax env variant side depthMinus1 child .ninf .inf io with
        | .error e => .error e
        | .ok (score, io) =>
          let depthScores := depthScores ++ [(move, score)]
          if Score.lt depthBestScore score then
            rootMovesLoop env variant side root depthMinus1 rest (some move) score depthScores io
          else
            rootMovesLoop env variant side root depthMinus1 rest depthBestMove depthBestScore
              depthScores io

/-- The body of one depth iteration (the `try` block at a given `depth`). -/
def rootIter (env : SearchEnv) (variant : Variant) (side : Color) (root : GameNode)
    (legalMoves : List Move) (depth : Nat) (s : LoopState) : Except SearchAbort LoopState :=
  let ordered := orderMoves root.board legalMoves (some s.bestMove)
  match rootMovesLoop env variant side root (depth - 1) ordered ordered.head? .ninf [] s.io with
  | .error e => .error e
  | .ok (depthBestMove, depthBestScore, depthScores, io) =>
    .ok { bestMove := match depthBestMove with | some m => m | none => s.bestMove,
          bestScore := depthBestScore, depthReached := depth,
          scoredAtDepth := depthScores, io := io }

/-- The pre-iteration `Date.now() >= deadline` reading consumes one oracle
entry when it lets the loop proceed. -/
def bumpTime (s : LoopState) : LoopState :=
  { s with io := { s.io with timeIdx := s.io.timeIdx + 1 } }

/-- The `for (let depth = 1; depth <= maxDepth; ...)` loop, with the number
of iterations still to run (`maxDepth + 1 - depth`, structurally decreasing)
as first argument.  A caught `SearchTimeoutError` breaks out keeping the last
completed state; any other thrown error is re-thrown. -/
def runDepths (env : SearchEnv) (variant : Variant) (side : Color) (root : GameNode)
    (legalMoves : List Move) : Nat → Nat → LoopState → Except SearchAbort LoopState
  | 0, _, s => .ok s
  | fuel + 1, depth, s =>
    if env.expired s.io.timeIdx then .ok s
    else
      match rootIter env variant side root legalMoves depth (bumpTime s) with
      | .ok s' => runDepths env variant side root legalMoves fuel (depth + 1) s'
      | .error .timeout => .ok s
      | .error .invalid => .error .invalid

/-- `Math.floor(r * n)` for an RNG draw `r` (always in `[0, 1)`, so
nonnegative) and a list length `n`, computed on the rational's numerator and
denominator directly. -/
def ratIndex (q : ℚ) (n : Nat) : Nat :=
  q.num.toNat * n / q.den

/-- The post-loop noise randomisation (strength mode only). -/
def applyNoise (env : SearchEnv) (config : DifficultyConfig) (mode : Mode) (rngIdx : Nat)
    (s : LoopState) : Move × Score :=
  if mode = .ai ∧ s.scoredAtDepth.length > 1 ∧ config.noise > 0 then
    let candidates := s.scoredAtDepth.filter
      (fun entry => Score.le (Score.subInt s.bestScore config.noise) entry.2)
    if candidates.isEmpty then (s.bestMove, s.bestScore)
    else
      match candidates.get? (ratIndex (env.rng rngIdx) candidates.length) with
      | some picked => picked
      | none => (s.bestMove, s.bestScore)
  else (s.bestMove, s.bestScore)

/-- `chooseBestMove`.  The globals it reads (`state.board`, `state.turn`,
`state.pendingCapture`, `state.difficulty`, `state.variant`) are passed
explicitly; `cloneBoard` is the identity under value semantics.  A
`.error .invalid` result models the uncaught exception path (never reached,
see `minimax_no_invalid`). -/
def chooseBestMove (env : SearchEnv) (variant : Variant) (difficulty : Difficulty)
    (stateBoard : Board) (stateTurn : Color) (statePending : Option Coords)
    (side : Color) (mode : Mode) : Except SearchAbort SearchResult :=
  let root : GameNode :=
    { board := stateBoard, hash := computeBoardHash stateBoard,
      turn := stateTurn, pendingCapture := statePending }
  match getLegalMoves root.board root.turn root.pendingCapture with
  | [] => .ok ⟨none, .fin (terminalScore variant root.turn side 0), 0⟩
  | m0 :: restMoves =>
    let legalMoves := m0 :: restMoves
    if root.turn ≠ side then .ok ⟨none, .fin (-WIN_SCORE), 0⟩
    else
      let config := if mode = .hint then DIFFICULTIES .hard else DIFFICULTIES difficulty
      let checksRandom := mode = .ai ∧ config.randomChance > 0
      if checksRandom ∧ env.rng 0 < config.randomChance then
        .ok ⟨legalMoves.get? (ratIndex (env.rng 1) legalMoves.length), .fin 0, 0⟩
      else
        let rngIdx := if checksRandom then 1 else 0
        let maxDepth := if mode = .ai then config.maxDepth else config.hintDepth
        let s0 : LoopState :=
          { bestMove := m0, bestScore := .ninf, depthReached := 0,
            scoredAtDepth := [(m0, .ninf)], io := ⟨0, 0, []⟩ }
        match runDepths env variant side root legalMoves maxDepth 1 s0 with
        | .error e => .error e
        | .ok s =>
          let picked := applyNoise env config mode rngIdx s
          .ok ⟨some picked.1, picked.2, s.depthReached⟩

/-! ### Specification-side predicates and harnesses used by the theorems -/

/-- The board squares the engine can ever populate: every off-board square is
empty.  This is automatic for the source's literal 8×8 arrays and is an
explicit well-formedness condition for the total-function model. -/
def BoardWF (b : Board) : Prop :=
  ∀ r c : Int, isInside r c = false → b r c = none

/-- What a generated capture list looks like: exactly one captured square per
ply, holding an enemy piece, on the board. -/
def CapSpec (b : Board) (color : Color) (m : Move) : Prop :=
  ∃ cap q, m.captures = [cap] ∧ isInside cap.r cap.c = true ∧
    b cap.r cap.c = some q ∧ q.color ≠ color

/-- Facts true of every move produced by `getLegalMoves`: the source square
holds a piece of the moving side, the landing square is on the board and
empty, and the capture list is empty or a single enemy-occupied square. -/
def MoveSpec (b : Board) (color : Color) (m : Move) : Prop :=
  (∃ p, b m.fromSq.r m.fromSq.c = some p ∧ p.color = color) ∧
  isInside m.toSq.r m.toSq.c = true ∧
  b m.toSq.r m.toSq.c = none ∧
  (m.captures = [] ∨ CapSpec b color m)

/-- `true` iff some piece of `color` has a capture available (the condition
the mandatory-capture rule keys on). -/
def hasCapturePred (b : Board) (color : Color) (rc : Int × Int) : Bool :=
  match b rc.1 rc.2 with
  | some p => decide (p.color = color) && !(getCaptureMovesForPiece b rc.1 rc.2 p).isEmpty
  | none => false

def sideHasCapture (b : Board) (color : Color) : Bool :=
  allSquares.any (hasCapturePred b color)

/-- The non-capturing moves of one square's piece, if it belongs to `color`. -/
def quietGen (b : Board) (color : Color) (rc : Int × Int) : List Move :=
  match b rc.1 rc.2 with
  | some p => if p.color = color then getSimpleMovesForPiece b rc.1 rc.2 p else []
  | none => []

/-- The union, in board-scan order, of all non-capturing moves of the side. -/
def allQuietMoves (b : Board) (color : Color) : List Move :=
  allSquares.flatMap (quietGen b color)

/-- The moved piece as it lands: kinged exactly when `applyMoveMutable`'s
promotion condition fires. -/
def promoteIfBackRank (p : Piece) (m : Move) : Piece :=
  if ¬ p.king ∧
      ((p.color = .w ∧ m.toSq.r = 0) ∨ (p.color = .b ∧ m.toSq.r = BOARD_SIZE - 1)) then
    { p with king := true }
  else p

/-- `optTerm r c v` is square `(r, c)`'s contribution to `computeBoardHash`
when it holds `v`. -/
def optTerm (r c : Int) : Option Piece → Nat
  | none => 0
  | some p => zPieceTerm r c p

/-- Whether a square holds a piece of `color`. -/
def isSidePiece (b : Board) (color : Color) (rc : Int × Int) : Bool :=
  match b rc.1 rc.2 with
  | some p => decide (p.color = color)
  | none => false

/-- The number of `color`'s pieces on the board. -/
def sidePieceCount (b : Board) (color : Color) : Nat :=
  (allSquares.filter (isSidePiece b color)).length

/-- A make/unmake call against a node, as issued by the search: `apply m`
(performed only when `m` is currently legal, as every search apply is) and
`undo` (consuming the most recent outstanding token). -/
inductive SearchOp where
  | apply (m : Move)
  | undo

/-- Runs a sequence of `applyMoveMutable`/`undoMoveMutable` calls in the
stack discipline of the search. -/
def runOps : GameNode → List AppliedMoveUndo → List SearchOp → GameNode × List AppliedMoveUndo
  | node, stack, [] => (node, stack)
  | node, stack, .apply m :: ops =>
    if m ∈ getLegalMoves node.board node.turn node.pendingCapture then
      match applyMoveMutable node m with
      | some (node', u) => runOps node' (u :: stack) ops
      | none => runOps node stack ops
    else runOps node stack ops
  | node, stack, .undo :: ops =>
    match stack with
    | [] => runOps node stack ops
    | u :: rest => runOps (undoMoveMutable node u) rest ops

/-- The reachable (node, undo-stack) configurations: a well-formed,
hash-consistent start node extended by legal applies.  Every mid-search
configuration is of this shape. -/
inductive Chain : GameNode → List AppliedMoveUndo → Prop where
  | nil (node : GameNode) (hwf : BoardWF node.board)
      (hhash : node.hash = computeBoardHash node.board) : Chain node []
  | cons {node : GameNode} {stack : List AppliedMoveUndo} {m : Move} {node' : GameNode}
      {u : AppliedMoveUndo} (h : Chain node stack)
      (hm : m ∈ getLegalMoves node.board node.turn node.pendingCapture)
      (happ : applyMoveMutable node m = some (node', u)) : Chain node' (u :: stack)

/-- `iterState k` is the loop state after `k` fully completed depth
iterations (depths `1..k`), `none` if the loop stopped (pre-iteration
deadline, or abort inside the iteration) at or before depth `k`. -/
def iterState (env : SearchEnv) (variant : Variant) (side : Color) (root : GameNode)
    (legalMoves : List Move) (s0 : LoopState) : Nat → Option LoopState
  | 0 => some s0
  | k + 1 =>
    match iterState env variant side root legalMoves s0 k with
    | none => none
    | some s =>
      if env.expired s.io.timeIdx then none
      else
        match rootIter env variant side root legalMoves (k + 1) (bumpTime s) with
        | .ok s' => some s'
        | .error _ => none

/-! ### Concrete positions used to instantiate the theorems -/

def emptyBoard : Board := fun _ _ => none

/-- `createInitialBoard`: black men on playable squares of rows 0–2, white men
on playable squares of rows 5–7. -/
def createInitialBoard : Board := fun r c =>
  if isPlayableSquare r c ∧ 0 ≤ r ∧ r < 3 ∧ 0 ≤ c ∧ c < BOARD_SIZE then some ⟨.b, false⟩
  else if isPlayableSquare r c ∧ 5 ≤ r ∧ r < BOARD_SIZE ∧ 0 ≤ c ∧ c < BOARD_SIZE then
    some ⟨.w, false⟩
  else none

/-- White man on (5,4), black man on (6,5): white's only legal move is the
backward capture landing on (7,6). -/
def backCapBoard : Board :=
  bset (bset emptyBoard 5 4 (some ⟨.w, false⟩)) 6 5 (some ⟨.b, false⟩)

def backCapNode : GameNode :=
  { board := backCapBoard, hash := computeBoardHash backCapBoard, turn := .w,
    pendingCapture := none }

def backCapMove : Move := ⟨⟨5, 4⟩, ⟨7, 6⟩, [⟨6, 5⟩]⟩

/-- White man on (5,0), black man on (0,1): no captures for either side. -/
def quietBoard : Board :=
  bset (bset emptyBoard 5 0 (some ⟨.w, false⟩)) 0 1 (some ⟨.b, false⟩)

/-- White man on (5,2), black men on (4,3) and (2,3): capturing to (3,4)
leaves a follow-up capture over (2,3). -/
def multiJumpBoard : Board :=
  bset (bset (bset emptyBoard 5 2 (some ⟨.w, false⟩)) 4 3 (some ⟨.b, false⟩))
    2 3 (some ⟨.b, false⟩)

def multiJumpNode : GameNode :=
  { board := multiJumpBoard, hash := computeBoardHash multiJumpBoard, turn := .w,
    pendingCapture := none }

def multiJumpMove : Move := ⟨⟨5, 2⟩, ⟨3, 4⟩, [⟨4, 3⟩]⟩

/-- Giveaway scenario board: white's single man on (4,1), black men on (0,1)
and (0,3); white to move has two quiet moves and no captures. -/
def oneManBoard : Board :=
  bset (bset (bset emptyBoard 4 1 (some ⟨.w, false⟩)) 0 1 (some ⟨.b, false⟩))
    0 3 (some ⟨.b, false⟩)

def oneManNode : GameNode :=
  { board := oneManBoard, hash := computeBoardHash oneManBoard, turn := .w,
    pendingCapture := none }

/-- A lone black man on (7,0): black to move has no legal moves. -/
def stuckBoard : Board := bset emptyBoard 7 0 (some ⟨.b, false⟩)

def stuckNode : GameNode :=
  { board := stuckBoard, hash := computeBoardHash stuckBoard, turn := .b,
    pendingCapture := none }

/-- An oracle environment whose deadline readings all say "expired" and whose
random stream is constantly `1/2`. -/
def expiredEnv : SearchEnv := ⟨fun _ => true, fun _ => ⟨1, 2, by decide, by decide⟩⟩

/-- An oracle environment whose deadline never expires. -/
def quietEnv : SearchEnv := ⟨fun _ => false, fun _ => ⟨1, 2, by decide, by decide⟩⟩

def initialNode : GameNode :=
  { board := createInitialBoard, hash := computeBoardHash createInitialBoard,
    turn := .w, pendingCapture := none }

/-- White man on (5,2) with two quiet moves, black man far away on (0,7). -/
def twoMoveBoard : Board :=
  bset (bset emptyBoard 5 2 (some ⟨.w, false⟩)) 0 7 (some ⟨.b, false⟩)

def mA : Move := ⟨⟨5, 2⟩, ⟨4, 1⟩, []⟩

def mB : Move := ⟨⟨5, 2⟩, ⟨4, 3⟩, []⟩

/-- Deadline readings expire from the fifth reading on (mid depth-2), the
first random draw dodges the easy tier's random-move shortcut, and the second
selects index 0 among the noise candidates. -/
def noiseEnv : SearchEnv :=
  ⟨fun k => decide (4 ≤ k),
   fun k => if k = 0 then ⟨9, 10, by decide, by decide⟩ else ⟨1, 4, by decide, by decide⟩⟩

def tmRoot : GameNode :=
  ⟨twoMoveBoard, computeBoardHash twoMoveBoard, .w, none⟩

def tmLegal : List Move := getLegalMoves twoMoveBoard .w none

def tmS0 : LoopState := ⟨mA, .ninf, 0, [(mA, .ninf)], ⟨0, 0, []⟩⟩

/-! ## Theorems -/

/-! ### Basic board lemmas -/

theorem bset_self (b : Board) (r c : Int) (v : Option Piece) : bset b r c v r c = v := by
  simp [bset]

theorem bset_ne (b : Board) (r c : Int) (v : Option Piece) {r' c' : Int}
    (h : ¬ (r' = r ∧ c' = c)) : bset b r c v r' c' = b r' c' := by
  simp only [bset, if_neg h]

theorem mem_allSquares {r c : Int} : (r, c) ∈ allSquares ↔ isInside r c = true := by
  constructor
  · intro h
    rw [allSquares] at h
    rcases List.mem_flatMap.mp h with ⟨a, ha, hmem⟩
    rcases List.mem_map.mp hmem with ⟨d, hd, had⟩
    rw [List.mem_range] at ha
    rw [List.mem_range] at hd
    injection had with h1 h2
    subst h1
    subst h2
    simp only [isInside, BOARD_SIZE, Int.ofNat_eq_natCast, Bool.and_eq_true,
      decide_eq_true_eq]
    omega
  · intro h
    simp only [isInside, BOARD_SIZE, Bool.and_eq_true, decide_eq_true_eq] at h
    rw [allSquares]
    refine List.mem_flatMap.mpr ⟨r.toNat, List.mem_range.mpr (by omega), ?_⟩
    refine List.mem_map.mpr ⟨c.toNat, List.mem_range.mpr (by omega), ?_⟩
    have h1 : ((r.toNat : Nat) : Int) = r := by omega
    have h2 : ((c.toNat : Nat) : Int) = c := by omega
    rw [Int.ofNat_eq_natCast, Int.ofNat_eq_natCast, h1, h2]

theorem allSquares_nodup : allSquares.Nodup := by decide

/-! ### Move-generator membership lemmas -/

theorem kingSlide_mem {b : Board} {fromR fromC dr dc : Int} {fuel : Nat} {nr nc : Int}
    {m : Move} (h : m ∈ kingSlide b fromR fromC dr dc fuel nr nc) :
    m.fromSq = ⟨fromR, fromC⟩ ∧ m.captures = [] ∧
      isInside m.toSq.r m.toSq.c = true ∧ b m.toSq.r m.toSq.c = none := by
  induction fuel generalizing nr nc with
  | zero => simp [kingSlide] at h
  | succ fuel ih =>
    rw [kingSlide] at h
    by_cases hc : (isInside nr nc && (b nr nc).isNone) = true
    · rw [if_pos hc] at h
      rcases List.mem_cons.mp h with h | h
      · subst h
        simp only [Bool.and_eq_true, Option.isNone_iff_eq_none] at hc
        exact ⟨rfl, rfl, hc.1, hc.2⟩
      · exact ih h
    · rw [if_neg hc] at h
      simp at h

theorem getSimpleMovesForPiece_mem {b : Board} {r c : Int} {piece : Piece} {m : Move}
    (h : m ∈ getSimpleMovesForPiece b r c piece) :
    m.fromSq = ⟨r, c⟩ ∧ m.captures = [] ∧
      isInside m.toSq.r m.toSq.c = true ∧ b m.toSq.r m.toSq.c = none := by
  rw [getSimpleMovesForPiece] at h
  by_cases hk : piece.king
  · rw [if_pos hk] at h
    simp only [List.mem_flatMap] at h
    obtain ⟨d, _, hm⟩ := h
    exact kingSlide_mem hm
  · rw [if_neg hk] at h
    simp only [List.mem_filterMap] at h
    obtain ⟨dc, _, hm⟩ := h
    by_cases hc : (isInside (r + (if piece.color = .w then -1 else 1)) (c + dc) &&
        (b (r + (if piece.color = .w then -1 else 1)) (c + dc)).isNone) = true
    · rw [if_pos hc] at hm
      cases hm
      simp only [Bool.and_eq_true, Option.isNone_iff_eq_none] at hc
      exact ⟨rfl, rfl, hc.1, hc.2⟩
    · rw [if_neg hc] at hm
      simp at hm

theorem getManCaptures_mem {b : Board} {r c : Int} {piece : Piece} {m : Move}
    (h : m ∈ getManCaptures b r c piece) :
    m.fromSq = ⟨r, c⟩ ∧ isInside m.toSq.r m.toSq.c = true ∧ b m.toSq.r m.toSq.c = none ∧
      ∃ cap q, m.captures = [cap] ∧ isInside cap.r cap.c = true ∧
        b cap.r cap.c = some q ∧ q.color ≠ piece.color := by
  rw [getManCaptures] at h
  simp only [List.mem_filterMap] at h
  obtain ⟨d, _, hm⟩ := h
  by_cases hin : (isInside (r + d.1) (c + d.2) && isInside (r + d.1 * 2) (c + d.2 * 2)) = true
  · rw [if_pos hin] at hm
    simp only [Bool.and_eq_true] at hin
    rcases hmid : b (r + d.1) (c + d.2) with _ | middle
    · rw [hmid] at hm
      simp at hm
    · rw [hmid] at hm
      simp only at hm
      by_cases hok : (decide (middle.color ≠ piece.color) && (b (r + d.1 * 2) (c + d.2 * 2)).isNone) = true
      · rw [if_pos hok] at hm
        cases hm
        simp only [Bool.and_eq_true, decide_eq_true_eq, Option.isNone_iff_eq_none] at hok
        exact ⟨rfl, hin.2, hok.2, ⟨r + d.1, c + d.2⟩, middle, rfl, hin.1, hmid, hok.1⟩
      · rw [if_neg hok] at hm
        simp at hm
  · rw [if_neg hin] at hm
    simp at hm

theorem kingCaptureScan_mem {b : Board} {fromR fromC : Int} {pieceColor : Color}
    {dr dc : Int} {fuel : Nat} {nr nc : Int} {enemySquare : Option Coords} {m : Move}
    (hinv : ∀ e, enemySquare = some e → isInside e.r e.c = true ∧
      ∃ q, b e.r e.c = some q ∧ q.color ≠ pieceColor)
    (h : m ∈ kingCaptureScan b fromR fromC pieceColor dr dc fuel nr nc enemySquare) :
    m.fromSq = ⟨fromR, fromC⟩ ∧ isInside m.toSq.r m.toSq.c = true ∧
      b m.toSq.r m.toSq.c = none ∧
      ∃ cap q, m.captures = [cap] ∧ isInside cap.r cap.c = true ∧
        b cap.r cap.c = some q ∧ q.color ≠ pieceColor := by
  induction fuel generalizing nr nc enemySquare with
  | zero => simp [kingCaptureScan] at h
  | succ fuel ih =>
    rw [kingCaptureScan.eq_def] at h
    simp only at h
    by_cases hin : isInside nr nc = true
    · rw [if_pos hin] at h
      rcases henemy : enemySquare with _ | e
      · subst henemy
        simp only at h
        rcases hcur : b nr nc with _ | current
        · rw [hcur] at h
          simp only at h
          exact ih (by simp) h
        · rw [hcur] at h
          simp only at h
          by_cases hcol : current.color = pieceColor
          · rw [if_pos hcol] at h; simp at h
          · rw [if_neg hcol] at h
            refine ih ?_ h
            intro e he
            cases he
            exact ⟨hin, current, hcur, hcol⟩
      · subst henemy
        simp only at h
        rcases hcur : b nr nc with _ | other
        · rw [hcur] at h
          simp only at h
          rcases List.mem_cons.mp h with h | h
          · subst h
            obtain ⟨hein, q, hq, hqc⟩ := hinv e rfl
            exact ⟨rfl, hin, hcur, e, q, rfl, hein, hq, hqc⟩
          · exact ih hinv h
        · rw [hcur] at h
          simp at h
    · rw [if_neg hin] at h
      simp at h

theorem getKingCaptures_mem {b : Board} {r c : Int} {piece : Piece} {m : Move}
    (h : m ∈ getKingCaptures b r c piece) :
    m.fromSq = ⟨r, c⟩ ∧ isInside m.toSq.r m.toSq.c = true ∧ b m.toSq.r m.toSq.c = none ∧
      ∃ cap q, m.captures = [cap] ∧ isInside cap.r cap.c = true ∧
        b cap.r cap.c = some q ∧ q.color ≠ piece.color := by
  rw [getKingCaptures] at h
  simp only [List.mem_flatMap] at h
  obtain ⟨d, _, hm⟩ := h
  exact kingCaptureScan_mem (by simp) hm

theorem getCaptureMovesForPiece_mem {b : Board} {r c : Int} {piece : Piece} {m : Move}
    (h : m ∈ getCaptureMovesForPiece b r c piece) :
    m.fromSq = ⟨r, c⟩ ∧ isInside m.toSq.r m.toSq.c = true ∧ b m.toSq.r m.toSq.c = none ∧
      ∃ cap q, m.captures = [cap] ∧ isInside cap.r cap.c = true ∧
        b cap.r cap.c = some q ∧ q.color ≠ piece.color := by
  rw [getCaptureMovesForPiece] at h
  by_cases hk : piece.king
  · rw [if_pos hk] at h; exact getKingCaptures_mem h
  · rw [if_neg hk] at h; exact getManCaptures_mem h

theorem getCaptureMovesForPiece_captures_ne {b : Board} {r c : Int} {piece : Piece}
    {m : Move} (h : m ∈ getCaptureMovesForPiece b r c piece) : m.captures ≠ [] := by
  obtain ⟨_, _, _, cap, q, hcap, _⟩ := getCaptureMovesForPiece_mem h
  simp [hcap]

/-! ### The `getLegalMoves` scan -/

theorem legalStep_flag (b : Board) (color : Color) (acc : List Move × List Move × Bool)
    (rc : Int × Int) :
    (legalStep b color acc rc).2.2 = (acc.2.2 || hasCapturePred b color rc) := by
  rw [legalStep, hasCapturePred]
  rcases hb : b rc.1 rc.2 with _ | p
  · simp
  · simp only
    by_cases hcol : p.color ≠ color
    · rw [if_pos hcol]
      simp [decide_eq_true_eq, hcol]
    · rw [if_neg hcol]
      rw [not_not] at hcol
      by_cases hcaps : (getCaptureMovesForPiece b rc.1 rc.2 p).isEmpty = true
      · rw [if_neg (by simp [hcaps])]
        by_cases hflag : acc.2.2 = true
        · rw [if_pos hflag]
          simp [hflag, hcaps]
        · rw [if_neg hflag]
          simp only [Bool.not_eq_true] at hflag
          simp [hflag, hcaps]
      · rw [if_pos (by simp [hcaps])]
        simp [hcol, hcaps]

theorem legalStep_captureMoves (b : Board) (color : Color)
    (acc : List Move × List Move × Bool) (rc : Int × Int) {m : Move}
    (h : m ∈ (legalStep b color acc rc).1) :
    m ∈ acc.1 ∨ ∃ p, b rc.1 rc.2 = some p ∧ p.color = color ∧
      m ∈ getCaptureMovesForPiece b rc.1 rc.2 p := by
  rw [legalStep] at h
  rcases hb : b rc.1 rc.2 with _ | p
  · rw [hb] at h
    exact .inl h
  · rw [hb] at h
    simp only at h
    by_cases hcol : p.color ≠ color
    · rw [if_pos hcol] at h
      exact .inl h
    · rw [if_neg hcol] at h
      rw [not_not] at hcol
      by_cases hcaps : ¬ (getCaptureMovesForPiece b rc.1 rc.2 p).isEmpty = true
      · rw [if_pos hcaps] at h
        rcases List.mem_append.mp h with h | h
        · exact .inl h
        · exact .inr ⟨p, rfl, hcol, h⟩

      · rw [if_neg hcaps] at h
        by_cases hflag : acc.2.2 = true
        · rw [if_pos hflag] at h
          exact .inl h
        · rw [if_neg hflag] at h
          exact .inl h

theorem legalStep_quietMoves (b : Board) (color : Color)
    (acc : List Move × List Move × Bool) (rc : Int × Int) {m : Move}
    (h : m ∈ (legalStep b color acc rc).2.1) :
    m ∈ acc.2.1 ∨ ∃ p, b rc.1 rc.2 = some p ∧ p.color = color ∧
      m ∈ getSimpleMovesForPiece b rc.1 rc.2 p := by
  rw [legalStep] at h
  rcases hb : b rc.1 rc.2 with _ | p
  · rw [hb] at h
    exact .inl h
  · rw [hb] at h
    simp only at h
    by_cases hcol : p.color ≠ color
    · rw [if_pos hcol] at h
      exact .inl h
    · rw [if_neg hcol] at h
      rw [not_not] at hcol
      by_cases hcaps : ¬ (getCaptureMovesForPiece b rc.1 rc.2 p).isEmpty = true
      · rw [if_pos hcaps] at h
        exact .inl h
      · rw [if_neg hcaps] at h
        by_cases hflag : acc.2.2 = true
        · rw [if_pos hflag] at h
          exact .inl h
        · rw [if_neg hflag] at h
          rcases List.mem_append.mp h with h | h
          · exact .inl h
          · exact .inr ⟨p, rfl, hcol, h⟩

theorem legalFold_flag (b : Board) (color : Color) (L : List (Int × Int))
    (acc : List Move × List Move × Bool) :
    (L.foldl (legalStep b color) acc).2.2 = (acc.2.2 || L.any (hasCapturePred b color)) := by
  induction L generalizing acc with
  | nil => simp
  | cons rc L ih =>
    rw [List.foldl_cons, ih, List.any_cons, legalStep_flag, Bool.or_assoc]

theorem legalFold_captures_ne (b : Board) (color : Color) (L : List (Int × Int))
    (acc : List Move × List Move × Bool)
    (hacc : ∀ m ∈ acc.1, m.captures ≠ []) :
    ∀ m ∈ (L.foldl (legalStep b color) acc).1, m.captures ≠ [] := by
  induction L generalizing acc with
  | nil => exact hacc
  | cons rc L ih =>
    rw [List.foldl_cons]
    refine ih _ ?_
    intro m hm
    rcases legalStep_captureMoves b color acc rc hm with h | ⟨p, _, _, h⟩
    · exact hacc m h
    · exact getCaptureMovesForPiece_captures_ne h

/-- When no piece of the side has a capture, the scan appends exactly the
quiet moves of each scanned square. -/
theorem legalFold_no_captures (b : Board) (color : Color) (L : List (Int × Int))
    (acc : List Move × List Move × Bool)
    (hany : L.any (hasCapturePred b color) = false) (hflag : acc.2.2 = false) :
    L.foldl (legalStep b color) acc =
      (acc.1, acc.2.1 ++ L.flatMap (quietGen b color), false) := by
  induction L generalizing acc with
  | nil =>
    simp only [List.foldl_nil, List.flatMap_nil, List.append_nil]
    exact Prod.ext rfl (Prod.ext rfl hflag)
  | cons rc L ih =>
    rw [List.any_cons, Bool.or_eq_false_iff] at hany
    have hstep : legalStep b color acc rc = (acc.1, acc.2.1 ++ quietGen b color rc, false) := by
      rw [legalStep, quietGen]
      rcases hb : b rc.1 rc.2 with _ | p
      · simp only [List.append_nil]
        exact Prod.ext rfl (Prod.ext rfl hflag)
      · simp only
        have hpred := hany.1
        rw [hasCapturePred, hb] at hpred
        simp only at hpred
        by_cases hcol : p.color ≠ color
        · rw [if_pos hcol, if_neg hcol]
          simp only [List.append_nil]
          exact Prod.ext rfl (Prod.ext rfl hflag)
        · rw [if_neg hcol]
          rw [not_not] at hcol
          rw [if_pos hcol]
          have hcaps : (getCaptureMovesForPiece b rc.1 rc.2 p).isEmpty = true := by
            rw [Bool.and_eq_false_iff] at hpred
            rcases hpred with hpred | hpred
            · exact absurd hcol (by simpa using hpred)
            · simpa using hpred
          rw [if_neg (by simp [hcaps]), if_neg (by rw [hflag]; simp)]
          exact Prod.ext rfl (Prod.ext rfl hflag)
    rw [List.foldl_cons, hstep, ih (acc.1, acc.2.1 ++ quietGen b color rc, false) hany.2 rfl]
    rw [List.flatMap_cons, List.append_assoc]

theorem captureMove_spec {b : Board} {color : Color} {rc : Int × Int} {p : Piece} {m : Move}
    (hb : b rc.1 rc.2 = some p) (hcol : p.color = color)
    (h : m ∈ getCaptureMovesForPiece b rc.1 rc.2 p) : MoveSpec b color m := by
  obtain ⟨hfrom, hto_in, hto, cap, q, hcaps, hcap_in, hcap, hqc⟩ := getCaptureMovesForPiece_mem h
  refine ⟨⟨p, by rw [hfrom]; exact hb, hcol⟩, hto_in, hto, .inr ⟨cap, q, hcaps, hcap_in, hcap, ?_⟩⟩
  rw [← hcol]
  exact hqc

theorem quietMove_spec {b : Board} {color : Color} {rc : Int × Int} {p : Piece} {m : Move}
    (hb : b rc.1 rc.2 = some p) (hcol : p.color = color)
    (h : m ∈ getSimpleMovesForPiece b rc.1 rc.2 p) : MoveSpec b color m := by
  obtain ⟨hfrom, hcaps, hto_in, hto⟩ := getSimpleMovesForPiece_mem h
  exact ⟨⟨p, by rw [hfrom]; exact hb, hcol⟩, hto_in, hto, .inl hcaps⟩

theorem legalFold_spec (b : Board) (color : Color) (L : List (Int × Int))
    (acc : List Move × List Move × Bool)
    (h1 : ∀ m ∈ acc.1, MoveSpec b color m) (h2 : ∀ m ∈ acc.2.1, MoveSpec b color m) :
    (∀ m ∈ (L.foldl (legalStep b color) acc).1, MoveSpec b color m) ∧
      (∀ m ∈ (L.foldl (legalStep b color) acc).2.1, MoveSpec b color m) := by
  induction L generalizing acc with
  | nil => exact ⟨h1, h2⟩
  | cons rc L ih =>
    rw [List.foldl_cons]
    refine ih _ ?_ ?_
    · intro m hm
      rcases legalStep_captureMoves b color acc rc hm with h | ⟨p, hb, hcol, h⟩
      · exact h1 m h
      · exact captureMove_spec hb hcol h
    · intro m hm
      rcases legalStep_quietMoves b color acc rc hm with h | ⟨p, hb, hcol, h⟩
      · exact h2 m h
      · exact quietMove_spec hb hcol h

theorem getLegalMoves_spec {b : Board} {color : Color} {pending : Option Coords} {m : Move}
    (h : m ∈ getLegalMoves b color pending) : MoveSpec b color m := by
  rcases pending with _ | pc
  case some =>
    rw [getLegalMoves] at h
    rcases hb : b pc.r pc.c with _ | p
    · rw [hb] at h
      simp at h
    · rw [hb] at h
      simp only at h
      by_cases hcol : p.color = color
      · rw [if_pos hcol] at h
        exact @captureMove_spec b color (pc.r, pc.c) p m hb hcol h
      · rw [if_neg hcol] at h
        simp at h
  case none =>
    rw [getLegalMoves] at h
    by_cases hflag : (allSquares.foldl (legalStep b color) ([], [], false)).2.2 = true
    · rw [if_pos hflag] at h
      exact (legalFold_spec b color allSquares ([], [], false) (by simp) (by simp)).1 m h
    · rw [if_neg hflag] at h
      exact (legalFold_spec b color allSquares ([], [], false) (by simp) (by simp)).2 m h

/-- **C1**: with a null forced-continuation, if any piece of the side to move
has a capture available then `getLegalMoves` contains no move with an empty
capture list; if no piece has a capture, the result is exactly the
scan-order union of the side's non-capturing moves. -/
theorem c1_mandatory_capture (b : Board) (color : Color) :
    (sideHasCapture b color = true →
      ∀ m ∈ getLegalMoves b color none, m.captures ≠ []) ∧
    (sideHasCapture b color = false →
      getLegalMoves b color none = allQuietMoves b color) := by
  constructor
  · intro hcap m hm
    rw [getLegalMoves] at hm
    have hflag := legalFold_flag b color allSquares ([], [], false)
    rw [sideHasCapture] at hcap
    rw [hcap] at hflag
    simp only [Bool.or_true] at hflag
    rw [if_pos hflag] at hm
    exact legalFold_captures_ne b color allSquares ([], [], false) (by simp) m hm
  · intro hno
    rw [sideHasCapture] at hno
    rw [getLegalMoves]
    rw [legalFold_no_captures b color allSquares ([], [], false) hno rfl]
    simp [allQuietMoves]

theorem c1_mandatory_capture_witness :
    (sideHasCapture backCapBoard .w = true ∧
      ∀ m ∈ getLegalMoves backCapBoard .w none, m.captures ≠ []) ∧
    (sideHasCapture quietBoard .w = false ∧
      getLegalMoves quietBoard .w none = allQuietMoves quietBoard .w) :=
  ⟨⟨by decide, (c1_mandatory_capture backCapBoard .w).1 (by decide)⟩,
    ⟨by decide, (c1_mandatory_capture quietBoard .w).2 (by decide)⟩⟩

/-! ### C6: movement directions of a non-king piece -/

/-- **C6 (amended)**: a non-king piece's *step* moves go only diagonally
forward (row decreasing for white, increasing for dark), but its *capture*
moves are generated in all four diagonal directions — backward captures are
allowed. -/
theorem c6_man_steps_forward_captures_any_direction (b : Board) (r c : Int) (piece : Piece)
    (hk : piece.king = false) :
    (∀ m ∈ getSimpleMovesForPiece b r c piece,
      m.toSq.r - r = (if piece.color = .w then -1 else 1) ∧
        (m.toSq.c - c = -1 ∨ m.toSq.c - c = 1)) ∧
    (∀ m ∈ getManCaptures b r c piece,
      (m.toSq.r - r = -2 ∨ m.toSq.r - r = 2) ∧ (m.toSq.c - c = -2 ∨ m.toSq.c - c = 2)) := by
  constructor
  · intro m hm
    rw [getSimpleMovesForPiece, if_neg (by rw [hk]; exact Bool.false_ne_true)] at hm
    simp only [List.mem_filterMap] at hm
    obtain ⟨dc, hdc, hm⟩ := hm
    by_cases hin : (isInside (r + (if piece.color = .w then -1 else 1)) (c + dc) &&
        (b (r + (if piece.color = .w then -1 else 1)) (c + dc)).isNone) = true
    · rw [if_pos hin] at hm
      cases hm
      simp only [List.mem_cons, List.not_mem_nil, or_false] at hdc
      rcases hdc with rfl | rfl
      · exact ⟨by ring, .inl (by ring)⟩
      · exact ⟨by ring, .inr (by ring)⟩
    · rw [if_neg hin] at hm
      simp at hm
  · intro m hm
    rw [getManCaptures] at hm
    simp only [List.mem_filterMap] at hm
    obtain ⟨d, hd, hm⟩ := hm
    by_cases hin : (isInside (r + d.1) (c + d.2) && isInside (r + d.1 * 2) (c + d.2 * 2)) = true
    · rw [if_pos hin] at hm
      rcases hmid : b (r + d.1) (c + d.2) with _ | middle
      · rw [hmid] at hm
        simp at hm
      · rw [hmid] at hm
        simp only at hm
        by_cases hok : (decide (middle.color ≠ piece.color) &&
            (b (r + d.1 * 2) (c + d.2 * 2)).isNone) = true
        · rw [if_pos hok] at hm
          cases hm
          simp only [DIRECTIONS, List.mem_cons, List.not_mem_nil, or_false] at hd
          rcases hd with rfl | rfl | rfl | rfl
          · exact ⟨.inl (by ring), .inl (by ring)⟩
          · exact ⟨.inl (by ring), .inr (by ring)⟩
          · exact ⟨.inr (by ring), .inl (by ring)⟩
          · exact ⟨.inr (by ring), .inr (by ring)⟩
        · rw [if_neg hok] at hm
          simp at hm
    · rw [if_neg hin] at hm
      simp at hm

/-- **C6 (counterexample)**: on `backCapBoard` the white man on (5,4) — a
non-king piece — is given the capture landing on (7,6), whose row *increases*:
a backward move for white, refuting "no generated move for a non-king piece
goes backward". -/
theorem c6_counterexample :
    backCapBoard 5 4 = some ⟨.w, false⟩ ∧
    (Piece.king ⟨.w, false⟩) = false ∧
    backCapMove ∈ getManCaptures backCapBoard 5 4 ⟨.w, false⟩ ∧
    backCapMove ∈ getLegalMoves backCapBoard .w none ∧
    backCapMove.fromSq = ⟨5, 4⟩ ∧
    backCapMove.toSq.r > backCapMove.fromSq.r := by decide

theorem c6_witness :
    (Piece.king ⟨.w, false⟩) = false ∧
    (∀ m ∈ getSimpleMovesForPiece quietBoard 5 0 ⟨.w, false⟩,
      m.toSq.r - 5 = (if (Piece.color ⟨.w, false⟩) = .w then -1 else 1) ∧
        (m.toSq.c - 0 = -1 ∨ m.toSq.c - 0 = 1)) ∧
    (∀ m ∈ getManCaptures quietBoard 5 0 ⟨.w, false⟩,
      (m.toSq.r - 5 = -2 ∨ m.toSq.r - 5 = 2) ∧ (m.toSq.c - 0 = -2 ∨ m.toSq.c - 0 = 2)) :=
  ⟨rfl, (c6_man_steps_forward_captures_any_direction quietBoard 5 0 ⟨.w, false⟩ rfl).1,
    (c6_man_steps_forward_captures_any_direction quietBoard 5 0 ⟨.w, false⟩ rfl).2⟩

/-! ### Hash decomposition -/

theorem natXor_comm (a b : Nat) : Nat.xor a b = Nat.xor b a := Nat.xor_comm a b

theorem natXor_assoc (a b c : Nat) :
    Nat.xor (Nat.xor a b) c = Nat.xor a (Nat.xor b c) := Nat.xor_assoc a b c

theorem natXor_zero (a : Nat) : Nat.xor a 0 = a := Nat.xor_zero a

theorem natXor_self (a : Nat) : Nat.xor a a = 0 := Nat.xor_self a

theorem hashStep_xor (b : Board) (h x : Nat) (rc : Int × Int) :
    hashStep b (Nat.xor h x) rc = Nat.xor (hashStep b h rc) x := by
  rw [hashStep, hashStep]
  rcases b rc.1 rc.2 with _ | p
  · rfl
  · simp only
    rw [natXor_assoc, natXor_assoc, natXor_comm x]

theorem hashFold_xor (b : Board) (L : List (Int × Int)) (h x : Nat) :
    L.foldl (hashStep b) (Nat.xor h x) = Nat.xor (L.foldl (hashStep b) h) x := by
  induction L generalizing h with
  | nil => rfl
  | cons rc L ih => rw [List.foldl_cons, List.foldl_cons, hashStep_xor, ih]

theorem hashFold_congr {b b' : Board} (L : List (Int × Int)) (h : Nat)
    (hagree : ∀ rc ∈ L, b rc.1 rc.2 = b' rc.1 rc.2) :
    L.foldl (hashStep b) h = L.foldl (hashStep b') h := by
  induction L generalizing h with
  | nil => rfl
  | cons rc L ih =>
    rw [List.foldl_cons, List.foldl_cons]
    rw [show hashStep b h rc = hashStep b' h rc by rw [hashStep, hashStep, hagree rc (by simp)]]
    exact ih _ (fun rc' h' => hagree rc' (by simp [h']))

theorem hashStep_eq_xor (b : Board) (h : Nat) (rc : Int × Int) :
    hashStep b h rc = Nat.xor h (optTerm rc.1 rc.2 (b rc.1 rc.2)) := by
  rw [hashStep, optTerm.eq_def]
  rcases b rc.1 rc.2 with _ | p
  · exact (natXor_zero h).symm
  · rfl

theorem computeBoardHash_bset (b : Board) (r c : Int) (v : Option Piece)
    (hin : isInside r c = true) :
    computeBoardHash (bset b r c v) =
      Nat.xor (Nat.xor (computeBoardHash b) (optTerm r c (b r c))) (optTerm r c v) := by
  obtain ⟨L1, L2, hsplit⟩ := List.append_of_mem (mem_allSquares.mpr hin)
  have hnodup := allSquares_nodup
  rw [hsplit] at hnodup
  rw [List.nodup_append] at hnodup
  have hnotL1 : (r, c) ∉ L1 := fun hmem => hnodup.2.2 hmem (by simp)
  have hnotL2 : (r, c) ∉ L2 := by
    have := hnodup.2.1
    rw [List.nodup_cons] at this
    exact this.1
  have hne : ∀ rc' : Int × Int, rc' ≠ (r, c) → bset b r c v rc'.1 rc'.2 = b rc'.1 rc'.2 := by
    intro rc' hrc
    refine bset_ne b r c v ?_
    intro ⟨h1, h2⟩
    exact hrc (Prod.ext h1 h2)
  have hL1 : ∀ rc' ∈ L1, bset b r c v rc'.1 rc'.2 = b rc'.1 rc'.2 :=
    fun rc' h' => hne rc' (fun he => hnotL1 (he ▸ h'))
  have hL2 : ∀ rc' ∈ L2, bset b r c v rc'.1 rc'.2 = b rc'.1 rc'.2 :=
    fun rc' h' => hne rc' (fun he => hnotL2 (he ▸ h'))
  rw [computeBoardHash, computeBoardHash, hsplit, List.foldl_append, List.foldl_append,
    List.foldl_cons, List.foldl_cons]
  rw [hashFold_congr L1 0 hL1]
  rw [hashStep_eq_xor (bset b r c v), hashStep_eq_xor b]
  have hself : bset b r c v (r, c).1 (r, c).2 = v := bset_self b r c v
  rw [hself]
  rw [hashFold_congr L2 _ hL2]
  rw [hashFold_xor, hashFold_xor]
  generalize L2.foldl (hashStep b) (L1.foldl (hashStep b) 0) = X
  show Nat.xor X (optTerm r c v) =
    Nat.xor (Nat.xor (Nat.xor X (optTerm r c (b r c))) (optTerm r c (b r c))) (optTerm r c v)
  rw [natXor_assoc X, natXor_self, natXor_zero]

/-! ### Applying a move: explicit forms -/

/-- `applyMoveMutable` on a non-capturing move, in closed form. -/
theorem applyMoveMutable_quiet_eq {node : GameNode} {m : Move} {p : Piece}
    (hfrom : node.board m.fromSq.r m.fromSq.c = some p) (hcaps : m.captures = []) :
    applyMoveMutable node m =
      some
        ({ board := bset (bset node.board m.fromSq.r m.fromSq.c none) m.toSq.r m.toSq.c
              (some (promoteIfBackRank p m)),
           hash := Nat.xor (Nat.xor node.hash (zPieceTerm m.fromSq.r m.fromSq.c p))
              (zPieceTerm m.toSq.r m.toSq.c (promoteIfBackRank p m)),
           turn := (nextTurnState
              (bset (bset node.board m.fromSq.r m.fromSq.c none) m.toSq.r m.toSq.c
                (some (promoteIfBackRank p m))) node.turn m).turn,
           pendingCapture := (nextTurnState
              (bset (bset node.board m.fromSq.r m.fromSq.c none) m.toSq.r m.toSq.c
                (some (promoteIfBackRank p m))) node.turn m).pendingCapture },
         { move := m, movedPiece := p, wasKing := p.king, captured := [],
           prevHash := node.hash, prevTurn := node.turn,
           prevPendingCapture := node.pendingCapture }) := by
  rw [applyMoveMutable, hfrom, hcaps]
  simp only [List.foldl_nil, promoteIfBackRank]

/-- `applyMoveMutable` on a single-capture move, in closed form. -/
theorem applyMoveMutable_capture_eq {node : GameNode} {m : Move} {p q : Piece} {cap : Coords}
    (hfrom : node.board m.fromSq.r m.fromSq.c = some p) (hcaps : m.captures = [cap])
    (hcapq : node.board cap.r cap.c = some q)
    (hcapf : ¬ (cap.r = m.fromSq.r ∧ cap.c = m.fromSq.c)) :
    applyMoveMutable node m =
      some
        ({ board := bset (bset (bset node.board m.fromSq.r m.fromSq.c none) cap.r cap.c none)
              m.toSq.r m.toSq.c (some (promoteIfBackRank p m)),
           hash := Nat.xor (Nat.xor (Nat.xor node.hash (zPieceTerm m.fromSq.r m.fromSq.c p))
              (zPieceTerm cap.r cap.c q))
              (zPieceTerm m.toSq.r m.toSq.c (promoteIfBackRank p m)),
           turn := (nextTurnState
              (bset (bset (bset node.board m.fromSq.r m.fromSq.c none) cap.r cap.c none)
                m.toSq.r m.toSq.c (some (promoteIfBackRank p m))) node.turn m).turn,
           pendingCapture := (nextTurnState
              (bset (bset (bset node.board m.fromSq.r m.fromSq.c none) cap.r cap.c none)
                m.toSq.r m.toSq.c (some (promoteIfBackRank p m))) node.turn m).pendingCapture },
         { move := m, movedPiece := p, wasKing := p.king,
           captured := [⟨cap.r, cap.c, q⟩], prevHash := node.hash, prevTurn := node.turn,
           prevPendingCapture := node.pendingCapture }) := by
  have hb1 : bset node.board m.fromSq.r m.fromSq.c none cap.r cap.c = some q := by
    rw [bset_ne _ _ _ _ hcapf]
    exact hcapq
  rw [applyMoveMutable, hfrom, hcaps]
  simp only [List.foldl_cons, List.foldl_nil, captureStep, hb1, promoteIfBackRank,
    List.nil_append]

/-! ### C2: apply/undo round trip -/

theorem apply_undo_roundtrip (node : GameNode) (m : Move)
    (hm : m ∈ getLegalMoves node.board node.turn node.pendingCapture) :
    ∃ node' u, applyMoveMutable node m = some (node', u) ∧
      undoMoveMutable node' u = node := by
  obtain ⟨⟨p, hfrom, hcol⟩, hto_in, hto, hcaps⟩ := getLegalMoves_spec hm
  obtain ⟨nb, nh, nt, np⟩ := node
  simp only at hfrom hto hcaps
  have hpe : ({ p with king := p.king } : Piece) = p := rfl
  rcases hcaps with hq | ⟨cap, q, hcapeq, hcap_in, hcapq, hqc⟩
  · refine ⟨_, _, applyMoveMutable_quiet_eq hfrom hq, ?_⟩
    rw [undoMoveMutable]
    simp only [hq, List.foldl_nil, hpe]
    congr 1
    funext r' c'
    by_cases h1 : r' = m.fromSq.r ∧ c' = m.fromSq.c
    · obtain ⟨rfl, rfl⟩ := h1
      rw [bset_self]
      exact hfrom.symm
    · rw [bset_ne _ _ _ _ h1]
      by_cases h2 : r' = m.toSq.r ∧ c' = m.toSq.c
      · obtain ⟨rfl, rfl⟩ := h2
        rw [bset_self]
        exact hto.symm
      · rw [bset_ne _ _ _ _ h2, bset_ne _ _ _ _ h2, bset_ne _ _ _ _ h1]
  · have hcapf : ¬ (cap.r = m.fromSq.r ∧ cap.c = m.fromSq.c) := by
      intro ⟨h1, h2⟩
      rw [h1, h2, hfrom] at hcapq
      cases hcapq
      exact hqc (hcol.symm ▸ rfl)
    have hcapt : ¬ (cap.r = m.toSq.r ∧ cap.c = m.toSq.c) := by
      intro ⟨h1, h2⟩
      rw [h1, h2, hto] at hcapq
      cases hcapq
    refine ⟨_, _, applyMoveMutable_capture_eq hfrom hcapeq hcapq hcapf, ?_⟩
    rw [undoMoveMutable]
    simp only [hcapeq, List.foldl_cons, List.foldl_nil, hpe]
    congr 1
    funext r' c'
    by_cases h0 : r' = cap.r ∧ c' = cap.c
    · obtain ⟨rfl, rfl⟩ := h0
      rw [bset_self]
      exact hcapq.symm
    · rw [bset_ne _ _ _ _ h0]
      by_cases h1 : r' = m.fromSq.r ∧ c' = m.fromSq.c
      · obtain ⟨rfl, rfl⟩ := h1
        rw [bset_self]
        exact hfrom.symm
      · rw [bset_ne _ _ _ _ h1]
        by_cases h2 : r' = m.toSq.r ∧ c' = m.toSq.c
        · obtain ⟨rfl, rfl⟩ := h2
          rw [bset_self]
          exact hto.symm
        · rw [bset_ne _ _ _ _ h2, bset_ne _ _ _ _ h2,
            bset_ne _ _ _ _ (fun he => h0 ⟨he.1, he.2⟩),
            bset_ne _ _ _ _ h1]

/-- **C2**: for every game node and every move in its legal-move list,
applying the move with `applyMoveMutable` and undoing with the returned token
restores the board (king flags included), the hash, the side to move, and the
forced-continuation square exactly. -/
theorem c2_apply_undo_roundtrip (node : GameNode) (m : Move)
    (hm : m ∈ getLegalMoves node.board node.turn node.pendingCapture) :
    ∃ node' u, applyMoveMutable node m = some (node', u) ∧
      undoMoveMutable node' u = node :=
  apply_undo_roundtrip node m hm

theorem c2_witness :
    backCapMove ∈ getLegalMoves backCapNode.board backCapNode.turn
      backCapNode.pendingCapture ∧
    ∃ node' u, applyMoveMutable backCapNode backCapMove = some (node', u) ∧
      undoMoveMutable node' u = backCapNode :=
  ⟨by decide, c2_apply_undo_roundtrip backCapNode backCapMove (by decide)⟩

/-! ### C3: multi-capture continuation -/

theorem nextTurnState_char (b : Board) (turn : Color) (m : Move) (p' : Piece)
    (hbto : b m.toSq.r m.toSq.c = some p') :
    nextTurnState b turn m =
      if m.captures ≠ [] ∧ getCaptureMovesForPiece b m.toSq.r m.toSq.c p' ≠ []
      then ⟨turn, some m.toSq⟩ else ⟨opposite turn, none⟩ := by
  rw [nextTurnState]
  by_cases hc : m.captures = []
  · rw [if_neg (by simp [hc]), if_neg (by simp [hc])]
  · rw [if_pos (by simp [hc]), hbto]
    simp only
    by_cases hf : getCaptureMovesForPiece b m.toSq.r m.toSq.c p' = []
    · rw [if_neg (by simp [hf]), if_neg (by simp [hf])]
    · rw [if_pos (by simp [hf]), if_pos ⟨hc, hf⟩]

/-- The components of a successful `applyMoveMutable`. -/
theorem applyMoveMutable_char {node : GameNode} {m : Move} {p : Piece}
    (hb : node.board m.fromSq.r m.fromSq.c = some p) :
    ∃ node' u, applyMoveMutable node m = some (node', u) ∧
      node'.board = bset (m.captures.foldl captureStep
          (bset node.board m.fromSq.r m.fromSq.c none,
            Nat.xor node.hash (zPieceTerm m.fromSq.r m.fromSq.c p), [])).1
        m.toSq.r m.toSq.c (some (promoteIfBackRank p m)) ∧
      node'.turn = (nextTurnState node'.board node.turn m).turn ∧
      node'.pendingCapture = (nextTurnState node'.board node.turn m).pendingCapture := by
  rw [applyMoveMutable, hb]
  simp only [promoteIfBackRank]
  exact ⟨_, _, rfl, rfl, rfl, rfl⟩

/-- **C3**: when `applyMoveMutable` succeeds, the resulting node keeps the
side to move and sets `pendingCapture` to the landing square exactly when the
move captured something and the landed (possibly just-promoted) piece has a
further capture from its landing square; in every other case — including every
non-capturing move — the side toggles and `pendingCapture` is `null`. -/
theorem c3_forced_continuation (node : GameNode) (m : Move)
    (hsome : node.board m.fromSq.r m.fromSq.c ≠ none) :
    ∃ node' u p, node.board m.fromSq.r m.fromSq.c = some p ∧
      applyMoveMutable node m = some (node', u) ∧
      node'.board m.toSq.r m.toSq.c = some (promoteIfBackRank p m) ∧
      ((m.captures ≠ [] ∧
          getCaptureMovesForPiece node'.board m.toSq.r m.toSq.c (promoteIfBackRank p m) ≠ [] →
        node'.turn = node.turn ∧ node'.pendingCapture = some m.toSq) ∧
        (¬ (m.captures ≠ [] ∧
            getCaptureMovesForPiece node'.board m.toSq.r m.toSq.c
              (promoteIfBackRank p m) ≠ []) →
          node'.turn = opposite node.turn ∧ node'.pendingCapture = none)) := by
  rcases hbcase : node.board m.fromSq.r m.fromSq.c with _ | p
  · exact absurd hbcase hsome
  · obtain ⟨node', u, happ, hboard, hturn, hpend⟩ := applyMoveMutable_char hbcase
    have hbto : node'.board m.toSq.r m.toSq.c = some (promoteIfBackRank p m) := by
      rw [hboard, bset_self]
    refine ⟨node', u, p, rfl, happ, hbto, ?_, ?_⟩
    · intro hcond
      rw [hturn, hpend, nextTurnState_char _ _ _ _ hbto, if_pos hcond]
      exact ⟨rfl, rfl⟩
    · intro hcond
      rw [hturn, hpend, nextTurnState_char _ _ _ _ hbto, if_neg hcond]
      exact ⟨rfl, rfl⟩

theorem c3_witness :
    multiJumpNode.board multiJumpMove.fromSq.r multiJumpMove.fromSq.c ≠ none ∧
    ∃ node' u p,
      multiJumpNode.board multiJumpMove.fromSq.r multiJumpMove.fromSq.c = some p ∧
      applyMoveMutable multiJumpNode multiJumpMove = some (node', u) ∧
      node'.board multiJumpMove.toSq.r multiJumpMove.toSq.c =
        some (promoteIfBackRank p multiJumpMove) ∧
      ((multiJumpMove.captures ≠ [] ∧
          getCaptureMovesForPiece node'.board multiJumpMove.toSq.r multiJumpMove.toSq.c
            (promoteIfBackRank p multiJumpMove) ≠ [] →
        node'.turn = multiJumpNode.turn ∧
          node'.pendingCapture = some multiJumpMove.toSq) ∧
        (¬ (multiJumpMove.captures ≠ [] ∧
            getCaptureMovesForPiece node'.board multiJumpMove.toSq.r multiJumpMove.toSq.c
              (promoteIfBackRank p multiJumpMove) ≠ []) →
          node'.turn = opposite multiJumpNode.turn ∧ node'.pendingCapture = none)) :=
  ⟨by decide, c3_forced_continuation multiJumpNode multiJumpMove (by decide)⟩

/-! ### C8: invalid-move application -/

theorem apply_error_iff (node : GameNode) (m : Move) :
    applyMoveMutable node m = none ↔ node.board m.fromSq.r m.fromSq.c = none := by
  rw [applyMoveMutable]
  rcases hb : node.board m.fromSq.r m.fromSq.c with _ | p
  · simp
  · simp

/-- **C8 (amended)**: `applyMoveMutable` raises its "Invalid move" error
exactly when the source square is empty (and it does so before touching the
board); it performs no legal-set validation, so a move outside the legal set
whose source square is occupied is applied without an error. -/
theorem c8_apply_error_iff_empty_source (node : GameNode) (m : Move) :
    applyMoveMutable node m = none ↔ node.board m.fromSq.r m.fromSq.c = none :=
  apply_error_iff node m

/-- **C8 (counterexample)**: the move (5,0)→(3,3) is not in the legal set of
the initial position (white to move) and its source square is occupied, yet
`applyMoveMutable` applies it and returns normally instead of raising. -/
theorem c8_counterexample :
    (⟨⟨5, 0⟩, ⟨3, 3⟩, []⟩ : Move) ∉
      getLegalMoves initialNode.board initialNode.turn initialNode.pendingCapture ∧
    initialNode.board 5 0 ≠ none ∧
    (applyMoveMutable initialNode ⟨⟨5, 0⟩, ⟨3, 3⟩, []⟩).isSome = true := by decide

/-! ### C9: giveaway evaluation of a lone piece -/

theorem giveawayStep_myPieces (b : Board) (persp : Color) (acc : GiveawayAcc)
    (rc : Int × Int) :
    (giveawayStep b persp acc rc).myMen + (giveawayStep b persp acc rc).myKings =
      acc.myMen + acc.myKings + (if isSidePiece b persp rc = true then 1 else 0) := by
  rw [giveawayStep, isSidePiece]
  rcases hb : b rc.1 rc.2 with _ | p
  · simp
  · simp only
    by_cases hcol : p.color = persp
    · simp only [hcol]
      by_cases hk : p.king = true <;>
        by_cases hv : isPotentialVictim b rc.1 rc.2 persp = true <;>
        simp [hk, hv] <;> omega
    · by_cases hk : p.king = true <;>
        by_cases hv : isPotentialVictim b rc.1 rc.2 p.color = true <;>
        simp [hcol, hk, hv] <;> omega

theorem giveawayFold_myPieces (b : Board) (persp : Color) (L : List (Int × Int))
    (acc : GiveawayAcc) :
    (L.foldl (giveawayStep b persp) acc).myMen +
        (L.foldl (giveawayStep b persp) acc).myKings =
      acc.myMen + acc.myKings + ((L.filter (isSidePiece b persp)).length : Int) := by
  induction L generalizing acc with
  | nil => simp
  | cons rc L ih =>
    rw [List.foldl_cons, ih]
    rw [giveawayStep_myPieces]
    by_cases hp : isSidePiece b persp rc = true
    · rw [if_pos hp, List.filter_cons_of_pos hp]
      simp only [List.length_cons]
      push_cast
      ring
    · rw [if_neg hp, List.filter_cons_of_neg (by simpa using hp)]
      ring

/-- **C9 (amended)**: in the giveaway variant the *full* win score is returned
by the evaluator once the perspective side has zero pieces left; a side with
exactly one piece remaining (and a move available) instead receives a finite
heuristic score — see the counterexample. -/
theorem c9_giveaway_zero_pieces_win (node : GameNode) (persp : Color) (moves : List Move)
    (h : sidePieceCount node.board persp = 0) :
    evaluateGiveawayPosition node persp moves = WIN_SCORE := by
  rw [evaluateGiveawayPosition]
  have hsum := giveawayFold_myPieces node.board persp allSquares ⟨0, 0, 0, 0, 0, 0, 0, 0⟩
  rw [sidePieceCount] at h
  rw [h] at hsum
  simp only at hsum
  rw [if_pos (by rw [hsum]; ring)]

/-- **C9 (counterexample)**: a giveaway position where the side to move
(white) has exactly one piece and two quiet moves: the evaluator returns a
small heuristic score, not the win magnitude of 1000000. -/
theorem c9_counterexample :
    isGiveawayVariant .giveaway = true ∧
    oneManNode.turn = .w ∧
    sidePieceCount oneManNode.board .w = 1 ∧
    getLegalMoves oneManNode.board oneManNode.turn oneManNode.pendingCapture ≠ [] ∧
    evaluatePosition .giveaway oneManNode .w none ≠ WIN_SCORE := by decide

theorem c9_witness :
    sidePieceCount stuckNode.board .w = 0 ∧
    evaluateGiveawayPosition stuckNode .w [] = WIN_SCORE :=
  ⟨by decide, c9_giveaway_zero_pieces_win stuckNode .w [] (by decide)⟩

/-! ### C5: terminal-score depth handling -/

/-- **C5 (code bug)**: `terminalScore` subtracts the *remaining* search depth,
so within one fixed-depth `minimax` call a forced win reached at a shallower
ply (larger remaining depth) scores strictly *lower* than one reached deeper —
the code prefers the slower win, inverting the documented intent.  With black
stuck (white wins, classic variant): remaining depth 3 scores 999997 < 999999
at remaining depth 1; for black's own perspective (a loss) the shallower ply
scores strictly higher instead of lower.  `minimax` exhibits the same values
on the concrete stuck position. -/
theorem c5_shallower_win_scores_lower :
    terminalScore .classic .b .w 3 < terminalScore .classic .b .w 1 ∧
    terminalScore .classic .b .w 3 = 999997 ∧
    terminalScore .classic .b .w 1 = 999999 ∧
    terminalScore .classic .b .b 3 > terminalScore .classic .b .b 1 ∧
    minimax quietEnv .classic .w 3 stuckNode .ninf .inf ⟨0, 0, []⟩ =
      .ok (.fin 999997, ⟨1, 0, []⟩) ∧
    minimax quietEnv .classic .w 1 stuckNode .ninf .inf ⟨0, 0, []⟩ =
      .ok (.fin 999999, ⟨1, 0, []⟩) :=
  ⟨by decide, by decide, by decide, by decide, by rfl, by rfl⟩

/-! ### C4: hash integrity across make/unmake sequences -/

theorem bset_preserves_WF {b : Board} (r c : Int) (v : Option Piece)
    (hv : v = none ∨ isInside r c = true) (hwf : BoardWF b) : BoardWF (bset b r c v) := by
  intro r' c' hout
  by_cases h : r' = r ∧ c' = c
  · obtain ⟨rfl, rfl⟩ := h
    rw [bset_self]
    rcases hv with rfl | hin
    · rfl
    · simp [hin] at hout
  · rw [bset_ne _ _ _ _ h]
    exact hwf r' c' hout

theorem wf_from_inside {b : Board} {r c : Int} {p : Piece} (hwf : BoardWF b)
    (h : b r c = some p) : isInside r c = true := by
  by_cases hin : isInside r c = true
  · exact hin
  · rw [hwf r c (by simpa using hin)] at h
    cases h

theorem applyMoveMutable_preserves_WF {node node' : GameNode} {m : Move}
    {u : AppliedMoveUndo} (hwf : BoardWF node.board)
    (hspec : MoveSpec node.board node.turn m)
    (happ : applyMoveMutable node m = some (node', u)) : BoardWF node'.board := by
  obtain ⟨⟨p, hfrom, hcol⟩, hto_in, hto, hcaps⟩ := hspec
  rcases hcaps with hq | ⟨cap, q, hcapeq, hcap_in, hcapq, hqc⟩
  · rw [applyMoveMutable_quiet_eq hfrom hq] at happ
    simp only [Option.some.injEq, Prod.mk.injEq] at happ
    obtain ⟨hn, _⟩ := happ
    rw [← hn]
    exact bset_preserves_WF _ _ _ (.inr hto_in)
      (bset_preserves_WF _ _ _ (.inl rfl) hwf)
  · have hcapf : ¬ (cap.r = m.fromSq.r ∧ cap.c = m.fromSq.c) := by
      intro ⟨h1, h2⟩
      rw [h1, h2, hfrom] at hcapq
      cases hcapq
      exact hqc (hcol.symm ▸ rfl)
    rw [applyMoveMutable_capture_eq hfrom hcapeq hcapq hcapf] at happ
    simp only [Option.some.injEq, Prod.mk.injEq] at happ
    obtain ⟨hn, _⟩ := happ
    rw [← hn]
    exact bset_preserves_WF _ _ _ (.inr hto_in)
      (bset_preserves_WF _ _ _ (.inl rfl) (bset_preserves_WF _ _ _ (.inl rfl) hwf))

theorem applyMoveMutable_preserves_hash {node node' : GameNode} {m : Move}
    {u : AppliedMoveUndo} (hwf : BoardWF node.board)
    (hspec : MoveSpec node.board node.turn m)
    (hhash : node.hash = computeBoardHash node.board)
    (happ : applyMoveMutable node m = some (node', u)) :
    node'.hash = computeBoardHash node'.board := by
  obtain ⟨⟨p, hfrom, hcol⟩, hto_in, hto, hcaps⟩ := hspec
  have hfr_in : isInside m.fromSq.r m.fromSq.c = true := wf_from_inside hwf hfrom
  have h1 : computeBoardHash (bset node.board m.fromSq.r m.fromSq.c none) =
      Nat.xor (computeBoardHash node.board) (zPieceTerm m.fromSq.r m.fromSq.c p) := by
    rw [computeBoardHash_bset _ _ _ _ hfr_in, hfrom]
    simp [optTerm, natXor_zero]
  have hB1to : bset node.board m.fromSq.r m.fromSq.c none m.toSq.r m.toSq.c = none := by
    by_cases h : m.toSq.r = m.fromSq.r ∧ m.toSq.c = m.fromSq.c
    · rcases h with ⟨h1', h2'⟩
      rw [h1', h2', bset_self]
    · rw [bset_ne _ _ _ _ h]
      exact hto
  rcases hcaps with hq | ⟨cap, q, hcapeq, hcap_in, hcapq, hqc⟩
  · rw [applyMoveMutable_quiet_eq hfrom hq] at happ
    simp only [Option.some.injEq, Prod.mk.injEq] at happ
    obtain ⟨hn, _⟩ := happ
    rw [← hn]
    simp only
    rw [computeBoardHash_bset _ _ _ _ hto_in, hB1to, h1, hhash]
    simp [optTerm, natXor_zero]
  · have hcapf : ¬ (cap.r = m.fromSq.r ∧ cap.c = m.fromSq.c) := by
      intro ⟨ha, hb2⟩
      rw [ha, hb2, hfrom] at hcapq
      cases hcapq
      exact hqc (hcol.symm ▸ rfl)
    have hB1cap : bset node.board m.fromSq.r m.fromSq.c none cap.r cap.c = some q := by
      rw [bset_ne _ _ _ _ hcapf]
      exact hcapq
    have h2 : computeBoardHash
        (bset (bset node.board m.fromSq.r m.fromSq.c none) cap.r cap.c none) =
        Nat.xor (Nat.xor (computeBoardHash node.board)
          (zPieceTerm m.fromSq.r m.fromSq.c p)) (zPieceTerm cap.r cap.c q) := by
      rw [computeBoardHash_bset _ _ _ _ hcap_in, hB1cap, h1]
      simp [optTerm, natXor_zero]
    have hB2to : bset (bset node.board m.fromSq.r m.fromSq.c none) cap.r cap.c none
        m.toSq.r m.toSq.c = none := by
      by_cases h : m.toSq.r = cap.r ∧ m.toSq.c = cap.c
      · rcases h with ⟨h1', h2'⟩
        rw [h1', h2', bset_self]
      · rw [bset_ne _ _ _ _ h]
        exact hB1to
    rw [applyMoveMutable_capture_eq hfrom hcapeq hcapq hcapf] at happ
    simp only [Option.some.injEq, Prod.mk.injEq] at happ
    obtain ⟨hn, _⟩ := happ
    rw [← hn]
    simp only
    rw [computeBoardHash_bset _ _ _ _ hto_in, hB2to, h2, hhash]
    simp [optTerm, natXor_zero]

theorem chain_wf_hash {node : GameNode} {stack : List AppliedMoveUndo}
    (h : Chain node stack) :
    BoardWF node.board ∧ node.hash = computeBoardHash node.board := by
  induction h with
  | nil n hwf hh => exact ⟨hwf, hh⟩
  | cons hc hm happ ih =>
    have hspec := getLegalMoves_spec hm
    exact ⟨applyMoveMutable_preserves_WF ih.1 hspec happ,
      applyMoveMutable_preserves_hash ih.1 hspec ih.2 happ⟩

theorem chain_undo {node : GameNode} {u : AppliedMoveUndo} {rest : List AppliedMoveUndo}
    (h : Chain node (u :: rest)) :
    ∃ nodePrev, Chain nodePrev rest ∧ undoMoveMutable node u = nodePrev := by
  cases h with
  | cons hprev hm happ =>
    obtain ⟨node', u', happ', hundo⟩ := apply_undo_roundtrip _ _ hm
    rw [happ] at happ'
    simp only [Option.some.injEq, Prod.mk.injEq] at happ'
    obtain ⟨hn, hu⟩ := happ'
    rw [← hn, ← hu] at hundo
    exact ⟨_, hprev, hundo⟩

theorem runOps_chain (ops : List SearchOp) :
    ∀ (node : GameNode) (stack : List AppliedMoveUndo), Chain node stack →
      Chain (runOps node stack ops).1 (runOps node stack ops).2 := by
  induction ops with
  | nil =>
    intro node stack h
    exact h
  | cons op ops ih =>
    intro node stack h
    cases op with
    | apply m =>
      simp only [runOps]
      by_cases hm : m ∈ getLegalMoves node.board node.turn node.pendingCapture
      · rw [if_pos hm]
        obtain ⟨⟨p, hfrom, _⟩, _, _, _⟩ := getLegalMoves_spec hm
        rcases happ : applyMoveMutable node m with _ | nu
        · rw [applyMoveMutable, hfrom] at happ
          simp at happ
        · exact ih _ _ (Chain.cons h hm (by rw [happ]))
      · rw [if_neg hm]
        exact ih _ _ h
    | undo =>
      simp only [runOps]
      cases stack with
      | nil =>
        show Chain (runOps node [] ops).1 (runOps node [] ops).2
        exact ih _ _ h
      | cons u rest =>
        obtain ⟨prev, hprev, hundo⟩ := chain_undo h
        show Chain (runOps (undoMoveMutable node u) rest ops).1
          (runOps (undoMoveMutable node u) rest ops).2
        rw [hundo]
        exact ih _ _ hprev

/-- **C4**: starting from a well-formed node whose hash matches a from-scratch
recomputation, after any sequence of (legal) `applyMoveMutable` calls and
stack-disciplined `undoMoveMutable` calls the incrementally maintained hash
still equals the hash recomputed from scratch off the current board — and the
full position key (board hash ⊕ side to move ⊕ forced-continuation ⊕ variant)
likewise matches the key of a freshly hashed node. -/
theorem c4_hash_integrity (node : GameNode) (ops : List SearchOp)
    (hwf : BoardWF node.board) (hhash : node.hash = computeBoardHash node.board) :
    (runOps node [] ops).1.hash = computeBoardHash (runOps node [] ops).1.board ∧
    ∀ variant, nodeCacheKey variant (runOps node [] ops).1 =
      nodeCacheKey variant
        { board := (runOps node [] ops).1.board,
          hash := computeBoardHash (runOps node [] ops).1.board,
          turn := (runOps node [] ops).1.turn,
          pendingCapture := (runOps node [] ops).1.pendingCapture } := by
  have h := (chain_wf_hash (runOps_chain ops node [] (Chain.nil node hwf hhash))).2
  refine ⟨h, fun variant => ?_⟩
  rw [nodeCacheKey, nodeCacheKey]
  simp only
  rw [h]

set_option maxRecDepth 4096 in
theorem c4_witness :
    BoardWF backCapNode.board ∧
    backCapNode.hash = computeBoardHash backCapNode.board ∧
    ((runOps backCapNode [] [.apply backCapMove, .undo]).1.hash =
        computeBoardHash (runOps backCapNode [] [.apply backCapMove, .undo]).1.board ∧
      ∀ variant, nodeCacheKey variant (runOps backCapNode [] [.apply backCapMove, .undo]).1 =
        nodeCacheKey variant
          { board := (runOps backCapNode [] [.apply backCapMove, .undo]).1.board,
            hash := computeBoardHash
              (runOps backCapNode [] [.apply backCapMove, .undo]).1.board,
            turn := (runOps backCapNode [] [.apply backCapMove, .undo]).1.turn,
            pendingCapture :=
              (runOps backCapNode [] [.apply backCapMove, .undo]).1.pendingCapture }) := by
  have hempty : BoardWF emptyBoard := fun _ _ _ => rfl
  have h1 : BoardWF (bset emptyBoard 5 4 (some ⟨.w, false⟩)) :=
    bset_preserves_WF 5 4 (some ⟨.w, false⟩) (.inr (by decide)) hempty
  have hwf : BoardWF backCapNode.board :=
    bset_preserves_WF 6 5 (some ⟨.b, false⟩) (.inr (by decide)) h1
  exact ⟨hwf, rfl, c4_hash_integrity backCapNode [.apply backCapMove, .undo] hwf rfl⟩

/-! ### Search: move ordering and the no-invalid-abort property -/

theorem insertDesc_perm (x : Move × Int) (l : List (Move × Int)) :
    (insertDesc x l).Perm (x :: l) := by
  induction l with
  | nil => exact List.Perm.refl _
  | cons y ys ih =>
    rw [insertDesc]
    by_cases h : y.2 < x.2
    · rw [if_pos h]
    · rw [if_neg h]
      exact (ih.cons y).trans (List.Perm.swap x y ys)

theorem sortDesc_perm (l : List (Move × Int)) : (sortDesc l).Perm l := by
  induction l with
  | nil => exact List.Perm.refl _
  | cons x xs ih => exact (insertDesc_perm x (sortDesc xs)).trans (ih.cons x)

theorem orderMoves_mem {b : Board} {moves : List Move} {pref : Option Move} {m : Move}
    (h : m ∈ orderMoves b moves pref) : m ∈ moves := by
  rw [orderMoves] at h
  simp only [List.mem_map] at h
  obtain ⟨pair, hpair, hm⟩ := h
  have := (sortDesc_perm _).mem_iff.mp hpair
  simp only [List.mem_map] at this
  obtain ⟨m', hm', heq⟩ := this
  rw [← heq] at hm
  simp only at hm
  rw [← hm]
  exact hm'

theorem checkSearchDeadline_ne_invalid (env : SearchEnv) (io : SearchIO) :
    checkSearchDeadline env io ≠ .error .invalid := by
  rw [checkSearchDeadline]
  by_cases h1 : (io.nodes + 1) &&& SearchClockCheckPeriodMask ≠ 0
  · rw [if_pos h1]
    simp
  · rw [if_neg h1]
    by_cases h2 : env.expired io.timeIdx = true
    · rw [if_pos h2]
      simp
    · rw [if_neg h2]
      simp

theorem minimaxLoop_no_invalid
    (recur : GameNode → Score → Score → SearchIO → Except SearchAbort (Score × SearchIO))
    (hrec : ∀ n a c io, recur n a c io ≠ .error .invalid)
    (node : GameNode) (maximizing : Bool) :
    ∀ (moves : List Move) (alpha beta bestScore : Score) (bestMove : Option Move)
      (io : SearchIO),
      (∀ m ∈ moves, node.board m.fromSq.r m.fromSq.c ≠ none) →
      minimaxLoop recur node maximizing moves alpha beta bestScore bestMove io ≠
        .error .invalid := by
  intro moves
  induction moves with
  | nil =>
    intro alpha beta bestScore bestMove io hmoves
    rw [minimaxLoop]
    simp
  | cons m rest ih =>
    intro alpha beta bestScore bestMove io hmoves
    rw [minimaxLoop]
    rcases happ : applyMoveMutable node m with _ | nu
    · exact absurd ((apply_error_iff node m).mp happ) (hmoves m (by simp))
    · simp only
      rcases hrecres : recur nu.1 alpha beta io with e | v
      · simp only
        intro hcontra
        cases hcontra
        exact hrec nu.1 alpha beta io hrecres
      · simp only
        by_cases hcut : Score.le
            (if maximizing then beta
              else Score.min beta (if (if maximizing then Score.lt bestScore v.1
                else Score.lt v.1 bestScore) = true then v.1 else bestScore))
            (if maximizing then Score.max alpha
                (if (if maximizing then Score.lt bestScore v.1
                  else Score.lt v.1 bestScore) = true then v.1 else bestScore)
              else alpha) = true
        · rw [if_pos hcut]
          simp
        · rw [if_neg hcut]
          exact ih _ _ _ _ _ (fun m' hm' => hmoves m' (by simp [hm']))

theorem minimax_no_invalid (env : SearchEnv) (variant : Variant) (rootColor : Color) :
    ∀ (depth : Nat) (node : GameNode) (alpha beta : Score) (io : SearchIO),
      minimax env variant rootColor depth node alpha beta io ≠ .error .invalid := by
  intro depth
  induction depth with
  | zero =>
    intro node alpha beta io
    rw [minimax]
    rcases hck : checkSearchDeadline env io with e | io'
    · simp only
      intro hcontra
      cases hcontra
      exact checkSearchDeadline_ne_invalid env io hck
    · simp only
      by_cases hempty : (getLegalMoves node.board node.turn node.pendingCapture).isEmpty = true
      · rw [if_pos hempty]
        simp
      · rw [if_neg hempty]
        simp
  | succ d ih =>
    intro node alpha beta io
    rw [minimax]
    rcases hck : checkSearchDeadline env io with e | io'
    · simp only
      intro hcontra
      cases hcontra
      exact checkSearchDeadline_ne_invalid env io hck
    · simp only
      by_cases hempty : (getLegalMoves node.board node.turn node.pendingCapture).isEmpty = true
      · rw [if_pos hempty]
        simp
      · rw [if_neg hempty]
        rcases hprobe : ttProbe (io'.table.lookup (nodeCacheKey variant node)) (d + 1)
            alpha beta with s | abp
        · simp
        · simp only
          rcases hloop : minimaxLoop (minimax env variant rootColor d) node
              (node.turn = rootColor)
              (orderMoves node.board (getLegalMoves node.board node.turn node.pendingCapture)
                abp.2.2)
              abp.1 abp.2.1
              (if node.turn = rootColor then Score.ninf else Score.inf)
              (orderMoves node.board (getLegalMoves node.board node.turn node.pendingCapture)
                abp.2.2).head? io' with e | v
          · simp only
            intro hcontra
            cases hcontra
            refine minimaxLoop_no_invalid _ (fun n a c io2 => ih n a c io2) node _ _ _ _ _ _ _
              ?_ hloop
            intro m hm
            obtain ⟨⟨p, hfrom, _⟩, _⟩ := getLegalMoves_spec (orderMoves_mem hm)
            rw [hfrom]
            simp
          · simp

theorem rootMovesLoop_no_invalid (env : SearchEnv) (variant : Variant) (side : Color)
    (root : GameNode) (depthMinus1 : Nat) :
    ∀ (moves : List Move) (dbm : Option Move) (dbs : Score)
      (scores : List (Move × Score)) (io : SearchIO),
      (∀ m ∈ moves, root.board m.fromSq.r m.fromSq.c ≠ none) →
      rootMovesLoop env variant side root depthMinus1 moves dbm dbs scores io ≠
        .error .invalid := by
  intro moves
  induction moves with
  | nil =>
    intro dbm dbs scores io hmoves
    rw [rootMovesLoop]
    simp
  | cons m rest ih =>
    intro dbm dbs scores io hmoves
    rw [rootMovesLoop]
    by_cases hexp : env.expired io.timeIdx = true
    · rw [if_pos hexp]
      simp
    · rw [if_neg hexp]
      rcases happ : applyMoveMutable root m with _ | nu
      · exact absurd ((apply_error_iff root m).mp happ) (hmoves m (by simp))
      · simp only
        rcases hmm : minimax env variant side depthMinus1 nu.1 .ninf .inf
            { io with timeIdx := io.timeIdx + 1 } with e | v
        · simp only
          intro hcontra
          cases hcontra
          exact minimax_no_invalid env variant side _ _ _ _ _ hmm
        · simp only
          by_cases himp : Score.lt dbs v.1 = true
          · rw [if_pos himp]
            exact ih _ _ _ _ (fun m' h' => hmoves m' (by simp [h']))
          · rw [if_neg himp]
            exact ih _ _ _ _ (fun m' h' => hmoves m' (by simp [h']))

theorem rootIter_no_invalid (env : SearchEnv) (variant : Variant) (side : Color)
    (root : GameNode) (legalMoves : List Move) (depth : Nat) (s : LoopState)
    (hmoves : ∀ m ∈ legalMoves, root.board m.fromSq.r m.fromSq.c ≠ none) :
    rootIter env variant side root legalMoves depth s ≠ .error .invalid := by
  rw [rootIter]
  rcases hloop : rootMovesLoop env variant side root (depth - 1)
      (orderMoves root.board legalMoves (some s.bestMove))
      (orderMoves root.board legalMoves (some s.bestMove)).head? .ninf [] s.io with e | v
  · simp only
    intro hcontra
    cases hcontra
    exact rootMovesLoop_no_invalid env variant side root _ _ _ _ _ _
      (fun m hm => hmoves m (orderMoves_mem hm)) hloop
  · simp

/-- The iterative-deepening loop, characterised: it returns the state of the
last fully completed depth iteration; an abort (deadline reached before a
depth, or a timeout raised inside one) discards only the current iteration. -/
theorem runDepths_eq_iter (env : SearchEnv) (variant : Variant) (side : Color)
    (root : GameNode) (legalMoves : List Move) (s0 : LoopState)
    (hmoves : ∀ m ∈ legalMoves, root.board m.fromSq.r m.fromSq.c ≠ none) :
    ∀ (fuel k : Nat) (s : LoopState),
      iterState env variant side root legalMoves s0 k = some s →
      ∃ j s', k ≤ j ∧ j ≤ k + fuel ∧
        iterState env variant side root legalMoves s0 j = some s' ∧
        runDepths env variant side root legalMoves fuel (k + 1) s = .ok s' ∧
        (j = k + fuel ∨ iterState env variant side root legalMoves s0 (j + 1) = none) := by
  intro fuel
  induction fuel with
  | zero =>
    intro k s hiter
    exact ⟨k, s, le_refl k, by omega, hiter, rfl, .inl (by omega)⟩
  | succ fuel ihn =>
    intro k s hiter
    rw [runDepths]
    by_cases hexp : env.expired s.io.timeIdx = true
    · rw [if_pos hexp]
      refine ⟨k, s, le_refl k, by omega, hiter, rfl, .inr ?_⟩
      rw [iterState, hiter]
      simp only
      rw [if_pos hexp]
    · rw [if_neg hexp]
      rcases hroot : rootIter env variant side root legalMoves (k + 1) (bumpTime s)
          with e | s1
      · cases e with
        | timeout =>
          refine ⟨k, s, le_refl k, by omega, hiter, rfl, .inr ?_⟩
          rw [iterState, hiter]
          simp only
          rw [if_neg hexp, hroot]
        | invalid =>
          exact absurd hroot
            (rootIter_no_invalid env variant side root legalMoves _ _ hmoves)
      · have hiter1 : iterState env variant side root legalMoves s0 (k + 1) = some s1 := by
          rw [iterState, hiter]
          simp only
          rw [if_neg hexp, hroot]
        obtain ⟨j, s', hkj, hjm, hiterj, hrun, hlast⟩ := ihn (k + 1) s1 hiter1
        refine ⟨j, s', by omega, by omega, hiterj, hrun, ?_⟩
        rcases hlast with h | h
        · exact .inl (by omega)
        · exact .inr h

/-! ### C10: asking the engine to move for the side not on turn -/

/-- **C10**: whenever the side to move differs from the side requested of
`chooseBestMove` and legal moves exist, the call performs no search and
returns `move = null`, `score = -WIN_SCORE` and `depthReached = 0`. -/
theorem c10_wrong_side_result (env : SearchEnv) (variant : Variant)
    (difficulty : Difficulty) (stateBoard : Board) (stateTurn : Color)
    (statePending : Option Coords) (side : Color) (mode : Mode)
    (hne : stateTurn ≠ side)
    (hlegal : getLegalMoves stateBoard stateTurn statePending ≠ []) :
    chooseBestMove env variant difficulty stateBoard stateTurn statePending side mode =
      .ok ⟨none, .fin (-WIN_SCORE), 0⟩ := by
  rw [chooseBestMove]
  simp only
  rcases hL : getLegalMoves stateBoard stateTurn statePending with _ | ⟨m0, rest⟩
  · exact absurd hL hlegal
  · simp only
    rw [if_pos hne]

theorem c10_witness :
    (Color.w ≠ Color.b) ∧
    getLegalMoves createInitialBoard .w none ≠ [] ∧
    chooseBestMove expiredEnv .classic .easy createInitialBoard .w none .b .ai =
      .ok ⟨none, .fin (-WIN_SCORE), 0⟩ :=
  ⟨by decide, by decide,
    c10_wrong_side_result expiredEnv .classic .easy createInitialBoard .w none .b .ai
      (by decide) (by decide)⟩

/-! ### C7: timeout absorption and the last-completed-depth fallback -/

/-- **C7 (amended)**: the top-level search never lets a search timeout escape:
for every position, side, mode and difficulty `chooseBestMove` returns a
result.  The depth loop always ends in the state of the last fully completed
depth — a deadline hit before or during an iteration discards only that
iteration — and the fallback state when no depth completed holds the first
legal move with `depthReached = 0`.  In hint mode, which skips the noise
step, the returned move is exactly that final state's best move.  (In
strength mode with positive noise the returned move may instead be any root
move of the last completed depth scoring within the noise tolerance of its
best — see the counterexample.) -/
theorem c7_search_total_and_fallback :
    (∀ (env : SearchEnv) (variant : Variant) (difficulty : Difficulty)
      (stateBoard : Board) (stateTurn : Color) (statePending : Option Coords)
      (side : Color) (mode : Mode),
      ∃ r, chooseBestMove env variant difficulty stateBoard stateTurn statePending side
        mode = .ok r) ∧
    (∀ (env : SearchEnv) (variant : Variant) (difficulty : Difficulty)
      (stateBoard : Board) (stateTurn : Color) (statePending : Option Coords)
      (side : Color) (m0 : Move) (rest : List Move),
      getLegalMoves stateBoard stateTurn statePending = m0 :: rest →
      stateTurn = side →
      ∃ j s', j ≤ (DIFFICULTIES .hard).hintDepth ∧
        iterState env variant side
          ⟨stateBoard, computeBoardHash stateBoard, stateTurn, statePending⟩
          (m0 :: rest) ⟨m0, .ninf, 0, [(m0, .ninf)], ⟨0, 0, []⟩⟩ j = some s' ∧
        (j = (DIFFICULTIES .hard).hintDepth ∨
          iterState env variant side
            ⟨stateBoard, computeBoardHash stateBoard, stateTurn, statePending⟩
            (m0 :: rest) ⟨m0, .ninf, 0, [(m0, .ninf)], ⟨0, 0, []⟩⟩ (j + 1) = none) ∧
        chooseBestMove env variant difficulty stateBoard stateTurn statePending side
          .hint = .ok ⟨some s'.bestMove, s'.bestScore, s'.depthReached⟩) := by
  constructor
  · intro env variant difficulty sb st sp side mode
    rw [chooseBestMove]
    simp only
    rcases hL : getLegalMoves sb st sp with _ | ⟨m0, rest⟩
    · exact ⟨_, rfl⟩
    · simp only
      by_cases hts : st ≠ side
      · rw [if_pos hts]
        exact ⟨_, rfl⟩
      · rw [if_neg hts]
        by_cases hrand : (mode = .ai ∧
            (if mode = .hint then DIFFICULTIES .hard
              else DIFFICULTIES difficulty).randomChance > 0) ∧
            env.rng 0 < (if mode = .hint then DIFFICULTIES .hard
              else DIFFICULTIES difficulty).randomChance
        · rw [if_pos hrand]
          exact ⟨_, rfl⟩
        · rw [if_neg hrand]
          have hmoves : ∀ m ∈ m0 :: rest,
              (⟨sb, computeBoardHash sb, st, sp⟩ : GameNode).board m.fromSq.r
                m.fromSq.c ≠ none := by
            intro m hm
            rw [← hL] at hm
            obtain ⟨⟨p, hfrom, _⟩, _⟩ := getLegalMoves_spec hm
            show sb m.fromSq.r m.fromSq.c ≠ none
            rw [hfrom]
            simp
          obtain ⟨j, s', _, _, _, hrun, _⟩ := runDepths_eq_iter env variant side
            ⟨sb, computeBoardHash sb, st, sp⟩ (m0 :: rest)
            ⟨m0, .ninf, 0, [(m0, .ninf)], ⟨0, 0, []⟩⟩ hmoves
            (if mode = .ai then
              (if mode = .hint then DIFFICULTIES .hard
                else DIFFICULTIES difficulty).maxDepth
              else (if mode = .hint then DIFFICULTIES .hard
                else DIFFICULTIES difficulty).hintDepth)
            0 ⟨m0, .ninf, 0, [(m0, .ninf)], ⟨0, 0, []⟩⟩ rfl
          rw [hrun]
          exact ⟨_, rfl⟩
  · intro env variant difficulty sb st sp side m0 rest hL hturn
    have hmoves : ∀ m ∈ m0 :: rest,
        (⟨sb, computeBoardHash sb, st, sp⟩ : GameNode).board m.fromSq.r
          m.fromSq.c ≠ none := by
      intro m hm
      rw [← hL] at hm
      obtain ⟨⟨p, hfrom, _⟩, _⟩ := getLegalMoves_spec hm
      show sb m.fromSq.r m.fromSq.c ≠ none
      rw [hfrom]
      simp
    obtain ⟨j, s', hj0, hjle, hiterj, hrun, hlast⟩ := runDepths_eq_iter env variant side
      ⟨sb, computeBoardHash sb, st, sp⟩ (m0 :: rest)
      ⟨m0, .ninf, 0, [(m0, .ninf)], ⟨0, 0, []⟩⟩ hmoves
      (DIFFICULTIES .hard).hintDepth 0 ⟨m0, .ninf, 0, [(m0, .ninf)], ⟨0, 0, []⟩⟩ rfl
    rw [Nat.zero_add] at hjle hlast
    refine ⟨j, s', hjle, hiterj, hlast, ?_⟩
    rw [chooseBestMove]
    simp only
    rcases hL2 : getLegalMoves sb st sp with _ | ⟨m1, rest1⟩
    · rw [hL] at hL2
      cases hL2
    · rw [hL] at hL2
      injection hL2 with h1 h2
      subst h1
      subst h2
      simp only
      rw [if_neg (by simp [hturn])]
      simp only [if_true]
      rw [if_neg (by simp : ¬ (((Mode.hint : Mode) = .ai ∧
        (DIFFICULTIES .hard).randomChance > 0) ∧
        env.rng 0 < (DIFFICULTIES .hard).randomChance))]
      rw [show (if (Mode.hint : Mode) = .ai then (DIFFICULTIES .hard).maxDepth
        else (DIFFICULTIES .hard).hintDepth) = (DIFFICULTIES .hard).hintDepth from by simp]
      rw [hrun]
      simp [applyNoise]

theorem c7_witness :
    (∃ r, chooseBestMove expiredEnv .classic .easy quietBoard .w none .w .ai = .ok r) ∧
    getLegalMoves quietBoard .w none = [⟨⟨5, 0⟩, ⟨4, 1⟩, []⟩] ∧
    (∃ j s', j ≤ (DIFFICULTIES .hard).hintDepth ∧
      iterState expiredEnv .classic .w
        ⟨quietBoard, computeBoardHash quietBoard, .w, none⟩
        [⟨⟨5, 0⟩, ⟨4, 1⟩, []⟩]
        ⟨⟨⟨5, 0⟩, ⟨4, 1⟩, []⟩, .ninf, 0, [(⟨⟨5, 0⟩, ⟨4, 1⟩, []⟩, .ninf)], ⟨0, 0, []⟩⟩ j =
          some s' ∧
      (j = (DIFFICULTIES .hard).hintDepth ∨
        iterState expiredEnv .classic .w
          ⟨quietBoard, computeBoardHash quietBoard, .w, none⟩
          [⟨⟨5, 0⟩, ⟨4, 1⟩, []⟩]
          ⟨⟨⟨5, 0⟩, ⟨4, 1⟩, []⟩, .ninf, 0, [(⟨⟨5, 0⟩, ⟨4, 1⟩, []⟩, .ninf)], ⟨0, 0, []⟩⟩
          (j + 1) = none) ∧
      chooseBestMove expiredEnv .classic .easy quietBoard .w none .w .hint =
        .ok ⟨some s'.bestMove, s'.bestScore, s'.depthReached⟩) :=
  ⟨c7_search_total_and_fallback.1 expiredEnv .classic .easy quietBoard .w none .w .ai,
    by decide,
    c7_search_total_and_fallback.2 expiredEnv .classic .easy quietBoard .w none .w
      ⟨⟨5, 0⟩, ⟨4, 1⟩, []⟩ [] (by decide) rfl⟩

/-- **C7 (counterexample)**: easy strength-mode search on `twoMoveBoard` with
oracle `noiseEnv`: depth 1 completes with best move `mB` (score 24), the
deadline interrupts depth 2, yet the returned move is `mA` (score 14) — the
noise randomisation replaced the last completed depth's best move, refuting
"the returned move is the best move of the last fully completed depth". -/
theorem c7_counterexample :
    (iterState noiseEnv .classic .w tmRoot tmLegal tmS0 1).map (fun s => s.bestMove) =
      some mB ∧
    (iterState noiseEnv .classic .w tmRoot tmLegal tmS0 1).map (fun s => s.depthReached) =
      some 1 ∧
    iterState noiseEnv .classic .w tmRoot tmLegal tmS0 2 = none ∧
    getLegalMoves twoMoveBoard .w none = [mA, mB] ∧
    chooseBestMove noiseEnv .classic .easy twoMoveBoard .w none .w .ai =
      .ok ⟨some mA, .fin 14, 1⟩ ∧
    mA ≠ mB :=
  ⟨rfl, rfl, rfl, by decide, rfl, by decide⟩

end CheckersStudio
